import Mathlib

/-!
# Verification of the design-agent research pipeline

Shallow embedding, in Lean 4, of the algorithmic core of the
`design-agent-research` repository, together with proofs settling the frozen
claims about it.

Conventions of the embedding:
* Python strings are modelled as Lean `String` / `List Char`; the Python
  string operations used by the code (`lower`, `strip`, `in`, `endswith`,
  `startswith`, `find`, `rfind`, slicing) are reimplemented below over
  `List Char`.  `str.lower` / `str.strip` are modelled on the ASCII range,
  which is the range the code's fixed keyword tables and JSON artifacts use.
* Python dicts carrying search results are modelled as records; fields other
  than the ones the code reads or writes are bundled into an opaque `extra`
  component so that frame conditions ("no other field is touched") are
  expressible.
* Network effects (HTTP fetches, LLM calls) are modelled as explicit oracle
  functions passed to the embedded functions; an oracle returning `none`
  models the Python call raising an exception.
* Thread-pool nondeterminism (`as_completed` ordering) is modelled by
  quantifying over an arbitrary permutation of the per-item results.
* Python `float` values flowing through JSON are modelled as exact decimal
  numbers (sign, magnitude, decimal exponent); every Python float serialized
  by `json.dumps` round-trips through such a decimal literal.
-/

namespace DesignAgent

/-! ## Python string primitives -/

/-- ASCII lower-casing of one character (models `str.lower` on the ASCII
range, which is the only range the code's keyword tables exercise). -/
def lowerChar (c : Char) : Char :=
  if 65 ≤ c.toNat ∧ c.toNat ≤ 90 then Char.ofNat (c.toNat + 32) else c

/-- `str.lower` on a character list. -/
def lowerL (l : List Char) : List Char := l.map lowerChar

/-- Python whitespace characters stripped by `str.strip()`. -/
def isPySpace (c : Char) : Bool :=
  c == ' ' || c == '\t' || c == '\n' || c == '\r' || c == '\x0b' || c == '\x0c'

/-- `str.strip()` on a character list. -/
def stripL (l : List Char) : List Char :=
  ((l.dropWhile isPySpace).reverse.dropWhile isPySpace).reverse

/-- Does `pat` occur at the head of `l`?  (Models `str.startswith`.) -/
def startsWithL : List Char → List Char → Bool
  | [], _ => true
  | _ :: _, [] => false
  | p :: ps, c :: cs => p == c && startsWithL ps cs

/-- Does `pat` occur anywhere inside `l`?  (Models Python's `pat in l`.) -/
def containsL (pat : List Char) : List Char → Bool
  | [] => pat.isEmpty
  | c :: cs => startsWithL pat (c :: cs) || containsL pat cs

/-- Does `l` end with `pat`?  (Models `str.endswith`.) -/
def endsWithL (l pat : List Char) : Bool :=
  startsWithL pat.reverse l.reverse

/-- String-level wrappers. -/
def pyLower (s : String) : String := ⟨lowerL s.data⟩

def pyStrip (s : String) : String := ⟨stripL s.data⟩

def pyContains (s pat : String) : Bool := containsL pat.data s.data

def pyEndsWith (s pat : String) : Bool := endsWithL s.data pat.data

def pyStartsWith (s pat : String) : Bool := startsWithL pat.data s.data

/-- `str.strip` for the trailing side only is not needed; but Python's
`a + b` on strings is `String.append`, used freely below. -/
def pyConcat (a b : String) : String := a ++ b

/-! ## Query enhancer (`src/agent/query_enhancer.py`) -/

def ACCESSIBILITY_KEYWORDS : List String :=
  ["wcag", "accessibility", "aria", "contrast", "keyboard", "screen reader"]

def FEASIBILITY_KEYWORDS : List String :=
  ["feasibility", "browser support", "performance", "container queries",
   "supports"]

def INSPIRATION_KEYWORDS : List String :=
  ["examples", "inspiration", "gallery", "show me", "visual"]

/-- `classify_query`: lower-case the question and test the three keyword
lists in priority order, defaulting to `"pattern"`. -/
def classify_query (question : String) : String :=
  let q := pyLower question
  if ACCESSIBILITY_KEYWORDS.any (fun k => pyContains q k) then "accessibility"
  else if FEASIBILITY_KEYWORDS.any (fun k => pyContains q k) then "feasibility"
  else if INSPIRATION_KEYWORDS.any (fun k => pyContains q k) then "inspiration"
  else "pattern"

/-- The three templated variants appended for a given classification
(empty for any other classification string), as built by
`generate_search_variants`. -/
def variantTemplates (classification base : String) : List String :=
  if classification = "pattern" then
    ["best practices " ++ base, "common pitfalls " ++ base, "2024 2025 " ++ base]
  else if classification = "accessibility" then
    ["wcag " ++ base, "aria " ++ base, "keyboard navigation " ++ base]
  else if classification = "inspiration" then
    ["examples " ++ base, "ui inspiration " ++ base, "design patterns " ++ base]
  else if classification = "feasibility" then
    ["browser support " ++ base, "performance " ++ base, "mdn " ++ base]
  else []

/-- First-seen-order deduplication with a `seen` accumulator (models the
`seen` set / `deduped` list loop). -/
def dedupSeen : List String → List String → List String
  | [], _ => []
  | v :: vs, seen =>
    if v ∈ seen then dedupSeen vs seen else v :: dedupSeen vs (v :: seen)

/-- `generate_search_variants`: trimmed question first, then the fixed
templates for the classification, deduplicated in first-seen order and
truncated to 6. -/
def generate_search_variants (question classification : String) : List String :=
  let base := pyStrip question
  let variants := base :: variantTemplates classification base
  (dedupSeen variants []).take 6

/-! ## Image extractor (`src/extract/image_extractor.py`)

The HTML fetch and parse are external effects; the embedding starts from the
collected candidate lists (meta-tag URLs in priority order, then the first
ten `<img>` URLs with their declared dimensions), each already absolutized
against the page URL, exactly the shape the scoring/selection code consumes.
-/

def ALLOWED_EXTS : List String := [".jpg", ".jpeg", ".png", ".webp"]

def BLOCKLIST_SUBSTRINGS : List String :=
  ["logo", "favicon", "sprite", "icon", "avatar", "badge", "masthead",
   "placeholder"]

def SKIP_IMAGE_DOMAINS : List String :=
  ["developer.mozilla.org", "w3.org", "web.dev"]

def MIN_DIMENSION : Int := 120

/-- Everything after the first `"//"`, or the whole string if none occurs
(models `url.split("//", 1)[-1]`). -/
def afterSchemeSep : List Char → Option (List Char)
  | [] => none
  | c :: cs =>
    if startsWithL ['/', '/'] (c :: cs) then some (cs.drop 1)
    else afterSchemeSep cs

/-- `_domain_of`: host part of a URL, lower-cased. -/
def domain_of (url : String) : String :=
  let tail := (afterSchemeSep url.data).getD url.data
  ⟨lowerL (tail.takeWhile (fun c => c ≠ '/'))⟩

/-- `_is_blocked`: skip-list host suffix, blocklist substring, or a URL not
ending in an allowed image extension. -/
def is_blocked (url : String) : Bool :=
  let dom := domain_of url
  if SKIP_IMAGE_DOMAINS.any (fun d => pyEndsWith dom d) then true
  else
    let lower := pyLower url
    if BLOCKLIST_SUBSTRINGS.any (fun s => pyContains lower s) then true
    else if !(ALLOWED_EXTS.any (fun e => pyEndsWith lower e)) then true
    else false

/-- One step of the `for dim in (width, height)` size-bonus loop of
`_score_candidate`. -/
def sizeStep (acc : Int) (dim : Option Int) : Int :=
  match dim with
  | none => acc
  | some d =>
    if d ≥ 600 then max acc 3
    else if d ≥ 300 then max acc 2
    else if d ≥ MIN_DIMENSION then max acc 1
    else acc

/-- `_score_candidate`. -/
def score_candidate (url : String) (from_meta : Bool)
    (dims : Option Int × Option Int) : Int :=
  if is_blocked url then -10
  else (if from_meta then 3 else 0) + sizeStep (sizeStep 0 dims.1) dims.2

/-- One image candidate: URL (absolutized), whether it came from meta tags,
and the declared dimensions if any. -/
structure Candidate where
  url : String
  fromMeta : Bool
  width : Option Int
  height : Option Int
deriving DecidableEq

/-- Score of a candidate through `_score_candidate`. -/
def candScore (c : Candidate) : Int :=
  score_candidate c.url c.fromMeta (c.width, c.height)

/-- The score-and-select loop of `extract_primary_image` (best starts at
`None`, best score at `-999`, strict improvement only). -/
def selectLoop : List Candidate → Option String → Int → Option String × Int
  | [], best, bscore => (best, bscore)
  | c :: cs, best, bscore =>
    if candScore c > bscore then selectLoop cs (some c.url) (candScore c)
    else selectLoop cs best bscore

/-- Selection part of `extract_primary_image`: run the loop, then accept
only a winning score of at least 1. -/
def extract_primary_image_select (cs : List Candidate) : Option String :=
  let r := selectLoop cs none (-999)
  if r.2 ≥ 1 then r.1 else none

/-- Meta phase of `extract_primary_image_debug`: return the first meta
candidate scoring at least 1. -/
def debugMetaPhase : List String → Option String
  | [] => none
  | m :: ms =>
    if score_candidate m true (none, none) ≥ 1 then some m
    else debugMetaPhase ms

/-- DOM phase of `extract_primary_image_debug`: return the first `<img>`
candidate scoring at least 1. -/
def debugImgPhase :
    List (String × Option Int × Option Int) →
      Option (String × Option Int × Option Int)
  | [] => none
  | (u, w, h) :: rest =>
    if score_candidate u false (w, h) ≥ 1 then some (u, w, h)
    else debugImgPhase rest

/-- Selection part of `extract_primary_image_debug`: first acceptable meta
candidate, else first acceptable `<img>` candidate, else no image. -/
def extract_primary_image_debug_select (metas : List String)
    (imgs : List (String × Option Int × Option Int)) :
    Option String × String × (Option Int × Option Int) :=
  match debugMetaPhase metas with
  | some u => (some u, "meta", (none, none))
  | none =>
    match debugImgPhase imgs with
    | some (u, w, h) => (some u, "dom", (w, h))
    | none => (none, "none", (none, none))

/-- The combined candidate list in first-seen order (meta candidates first,
then `<img>` candidates), as `extract_primary_image` collects it. -/
def combinedCandidates (metas : List String)
    (imgs : List (String × Option Int × Option Int)) : List Candidate :=
  metas.map (fun m => ⟨m, true, none, none⟩) ++
    imgs.map (fun p => ⟨p.1, false, p.2.1, p.2.2⟩)

/-! ### Spec-side definitions for claim C1, written from the claim's words -/

/-- Is a declared dimension present and at least `n`?  ("either declared
dimension ≥ n"; unknown dimensions never qualify). -/
def dimAtLeast (d : Option Int) (n : Int) : Bool :=
  match d with
  | none => false
  | some v => decide (n ≤ v)

/-- Modelled from the claim's words: score −10 when the host ends with a
skip-list domain, or the lowercased URL contains a blocklist substring, or
the lowercased URL does not end in .jpg/.jpeg/.png/.webp; otherwise
(3 if from meta else 0) plus a size bonus of 3 if either declared dimension
is ≥ 600, else 2 if ≥ 300, else 1 if ≥ 120, else 0. -/
def claimScore (c : Candidate) : Int :=
  if SKIP_IMAGE_DOMAINS.any (fun d => pyEndsWith (domain_of c.url) d)
      || BLOCKLIST_SUBSTRINGS.any (fun s => pyContains (pyLower c.url) s)
      || !(ALLOWED_EXTS.any (fun e => pyEndsWith (pyLower c.url) e)) then
    -10
  else
    (if c.fromMeta then 3 else 0) +
      (if dimAtLeast c.width 600 || dimAtLeast c.height 600 then 3
       else if dimAtLeast c.width 300 || dimAtLeast c.height 300 then 2
       else if dimAtLeast c.width 120 || dimAtLeast c.height 120 then 1
       else 0)

/-- Modelled from the claim's words: the candidate with the highest score
wins, ties broken by first-seen order, and the result is accepted only when
the winning score is at least 1. -/
def claimSelect (cs : List Candidate) : Option String :=
  match cs.find? (fun c =>
      decide (1 ≤ claimScore c ∧ ∀ c' ∈ cs, claimScore c' ≤ claimScore c)) with
  | some c => some c.url
  | none => none

/-- First-seen best candidate and its score, by straightforward recursion
(a proof device relating the imperative loop to `claimSelect`). -/
def firstArgmax : List Candidate → Option (String × Int)
  | [] => none
  | c :: cs =>
    match firstArgmax cs with
    | none => some (c.url, candScore c)
    | some (u, m) =>
      if m > candScore c then some (u, m) else some (c.url, candScore c)

/-- How the loop of `extract_primary_image` combines a running best with
the best of the remaining candidates (a proof device). -/
def loopSpec (r : Option (String × Int)) (b : Option String) (s : Int) :
    Option String × Int :=
  match r with
  | none => (b, s)
  | some (u, m) => if m > s then (some u, m) else (b, s)

/-- Amended selection rule for the debug variant, written from the amended
claim's words: the first meta candidate scoring at least 1 wins (source
"meta"), else the first `<img>` candidate scoring at least 1 (source
"dom"), else no image. -/
def claimDebugSelect (metas : List String)
    (imgs : List (String × Option Int × Option Int)) :
    Option String × String × (Option Int × Option Int) :=
  match metas.find? (fun m => decide (1 ≤ claimScore ⟨m, true, none, none⟩)) with
  | some m => (some m, "meta", (none, none))
  | none =>
    match imgs.find?
        (fun p => decide (1 ≤ claimScore ⟨p.1, false, p.2.1, p.2.2⟩)) with
    | some p => (some p.1, "dom", (p.2.1, p.2.2))
    | none => (none, "none", (none, none))

/-! ## Deduplicator / ranker (`src/search/deduplicator.py`)

A search-result dict is modelled as a record: the `url` key (a missing or
`None` url is modelled as the empty string, which Python's `not url` also
treats as absent), the `score` key the ranker writes, and an opaque `extra`
component standing for every other key the dict carries (title, snippet,
and any extra keys).  Python floats in the authority table are the exact
rationals 3, 2, 2.5.
-/

structure SearchRec (α : Type) where
  url : String
  score : ℚ
  extra : α
deriving DecidableEq

def AUTHORITY_DOMAINS : List (String × ℚ) :=
  [("nngroup.com", 3), ("alistapart.com", 2), ("smashingmagazine.com", 2),
   ("web.dev", 3), ("developer.mozilla.org", 3), ("w3.org", 3),
   ("lawsofux.com", 2), ("baymard.com", 5/2)]

/-- The authority loop of `dedup_and_rank`: running max over the weights of
matching authority domains, starting from 0.0.  (`_domain` in
`deduplicator.py` is byte-for-byte the same helper as `_domain_of` in
`image_extractor.py`, so `domain_of` is shared.) -/
def authority_for (url : String) : ℚ :=
  AUTHORITY_DOMAINS.foldl
    (fun acc p => if pyEndsWith (domain_of url) p.1 then max acc p.2 else acc) 0

/-- `c["score"] = authority`: the score key is (over)written, every other
component is untouched. -/
def addScore {α : Type} (r : SearchRec α) : SearchRec α :=
  { r with score := authority_for r.url }

/-- The dedup pass of `dedup_and_rank` with its `seen_urls` set. -/
def dedupPass {α : Type} : List (SearchRec α) → List String → List (SearchRec α)
  | [], _ => []
  | c :: cs, seen =>
    if c.url = "" ∨ c.url ∈ seen then dedupPass cs seen
    else addScore c :: dedupPass cs (c.url :: seen)

/-- Stable insertion: `x` goes in front of the first element that does not
strictly precede it, so elements comparing equal keep their input order —
the ordering contract of Python's stable `list.sort`. -/
def insertBy {α : Type} (le : α → α → Bool) (x : α) : List α → List α
  | [] => [x]
  | y :: ys =>
    if le y x && !(le x y) then y :: insertBy le x ys else x :: y :: ys

/-- Stable sort by a total preorder (models Python's `list.sort`, which is
stable; with the descending comparison below it models
`sort(key=score, reverse=True)`, which Python also keeps stable). -/
def pySortBy {α : Type} (le : α → α → Bool) : List α → List α
  | [] => []
  | x :: xs => insertBy le x (pySortBy le xs)

/-- Descending-score comparison used by the ranker's final sort. -/
def scoreDescLe {α : Type} (a b : SearchRec α) : Bool :=
  decide (b.score ≤ a.score)

/-- `dedup_and_rank`. -/
def dedup_and_rank {α : Type} (l : List (SearchRec α)) : List (SearchRec α) :=
  pySortBy scoreDescLe (dedupPass l [])

/-! ### Spec-side definitions for claims C2/C10, written from the claim's words -/

/-- Modelled from the claim's words: the maximum weight among authority
domains whose name is a suffix of the URL's host, 0.0 if none matches. -/
def specAuthority (url : String) : ℚ :=
  ((AUTHORITY_DOMAINS.filter (fun p => pyEndsWith (domain_of url) p.1)).map
    Prod.snd).foldr max 0

def specAddScore {α : Type} (r : SearchRec α) : SearchRec α :=
  { r with score := specAuthority r.url }

/-- Modelled from the claim's words: keep the first occurrence of each URL
(exact, case-sensitive string comparison), drop subsequent duplicates. -/
def dedupFirst {α : Type} : List (SearchRec α) → List (SearchRec α)
  | [] => []
  | c :: cs =>
    c :: dedupFirst (cs.filter (fun r => decide (r.url ≠ c.url)))
  termination_by l => l.length
  decreasing_by
    simp only [List.length_cons]
    have := List.length_filter_le (fun r => decide (r.url ≠ c.url)) cs
    omega

/-- The pipeline claim C2 describes: dedup by first URL occurrence, score
every survivor, stable-sort descending by score. -/
def claimRank {α : Type} (l : List (SearchRec α)) : List (SearchRec α) :=
  pySortBy scoreDescLe ((dedupFirst l).map specAddScore)

/-- The amended pipeline: records with a missing/empty URL are dropped
first; the rest is as claim C2 describes. -/
def amendedRank {α : Type} (l : List (SearchRec α)) : List (SearchRec α) :=
  pySortBy scoreDescLe
    ((dedupFirst (l.filter (fun r => decide (r.url ≠ "")))).map specAddScore)

/-! ## Parallel extractor (`src/extract/parallel_extractor.py`)

Network effects are oracles: `co url` is the content `fetch_with_jina`
produced (`none` models the call raising), `io url` is the triple
`extract_primary_image_debug` returned (`none` models the call raising).
The `as_completed` collection order is nondeterministic, so the embedded
function takes the collected list as an argument; the claim theorem
quantifies over every permutation of the per-item results.
-/

structure RankedRec where
  url : String
  title : Option String
deriving DecidableEq

structure ExtractedRec where
  title : Option String
  url : String
  content : String
  image_url : Option String
  image_source : String
  image_dims : Option Int × Option Int
deriving DecidableEq

/-- `fetch_single`: fetch content (exception degrades to `""`), then the
image triple (exception, or `include_images=False`, leaves the defaults
`None` / `"none"` / `(None, None)`). -/
def fetch_single (co : String → Option String)
    (io : String → Option (Option String × String × (Option Int × Option Int)))
    (include_images : Bool) (r : RankedRec) : ExtractedRec :=
  let content := (co r.url).getD ""
  let img :=
    if include_images then (io r.url).getD (none, "none", (none, none))
    else (none, "none", (none, none))
  { title := r.title, url := r.url, content := content,
    image_url := img.1, image_source := img.2.1, image_dims := img.2.2 }

/-- The dict comprehension `{r["url"]: i for i, r in enumerate(rs)}`:
later occurrences of the same url overwrite earlier ones. -/
def urlIdxFrom (i : Nat) : List RankedRec → String → Option Nat
  | [], _ => none
  | r :: rest, u =>
    match urlIdxFrom (i + 1) rest u with
    | some j => some j
    | none => if r.url = u then some i else none

/-- `url_to_index.get(url, 999)`. -/
def url_to_index_get (rs : List RankedRec) (u : String) : Nat :=
  (urlIdxFrom 0 rs u).getD 999

/-- `extract_content_parallel`: the workers' results (in completion order
`completed`) are stable-sorted ascending by the input index of their url. -/
def extract_content_parallel (co : String → Option String)
    (io : String → Option (Option String × String × (Option Int × Option Int)))
    (include_images : Bool) (rs : List RankedRec)
    (completed : List ExtractedRec) : List ExtractedRec :=
  pySortBy
    (fun a b => decide (url_to_index_get rs a.url ≤ url_to_index_get rs b.url))
    completed

/-- Concrete five-URL scenario from the spec's extraction-concurrency
property: URL #3 fails both fetches, workers finish in reverse order. -/
def rsW : List RankedRec :=
  [⟨"u1", none⟩, ⟨"u2", none⟩, ⟨"u3", none⟩, ⟨"u4", none⟩, ⟨"u5", none⟩]

def coW : String → Option String :=
  fun u => if u = "u3" then none else some ("text " ++ u)

def ioW : String → Option (Option String × String × (Option Int × Option Int)) :=
  fun u =>
    if u = "u3" then none
    else some (some (u ++ "/hero.jpg"), "meta", (none, none))

def completedW : List ExtractedRec := (rsW.map (fetch_single coW ioW true)).reverse

/-! ## Configuration (`src/utils/config.py`) and the orchestrator's
ranked-window truncation (`src/agent/orchestrator.py`)

The process environment is an explicit `String → Option String` argument.
`int(...)` is modelled on optional sign plus decimal digits (the only
shapes the configuration surface uses); counts are modelled as naturals.
-/

def isDigitChar (c : Char) : Bool := 48 ≤ c.toNat && c.toNat ≤ 57

def digitsToNat (ds : List Char) : Nat :=
  ds.foldl (fun a c => 10 * a + (c.toNat - 48)) 0

/-- `int(s)` for an optional sign followed by decimal digits; `none` models
`ValueError`. -/
def pyInt (s : String) : Option Int :=
  match s.data with
  | [] => none
  | '-' :: rest =>
    if rest ≠ [] ∧ rest.all isDigitChar then some (-(digitsToNat rest : Int))
    else none
  | '+' :: rest =>
    if rest ≠ [] ∧ rest.all isDigitChar then some (digitsToNat rest : Int)
    else none
  | l => if l ≠ [] ∧ l.all isDigitChar then some (digitsToNat l : Int) else none

/-- `_int_env`: unset or empty value gives the default, as does a value
that fails to parse as an integer after stripping. -/
def int_env (env : String → Option String) (key : String) (default : Int) :
    Int :=
  match env key with
  | none => default
  | some v =>
    if v = "" then default
    else (pyInt ⟨stripL v.data⟩).getD default

def get_min_ranked_results (env : String → Option String) : Int :=
  int_env env "MIN_RANKED_RESULTS" 6

def get_max_ranked_results (env : String → Option String) : Int :=
  int_env env "MAX_RANKED_RESULTS" 8

/-- The orchestrator's stage-4 truncation:
`dedup_and_rank(results)[: max(min_rank, min(max_rank, request.max_results))]`. -/
def rankWindow {α : Type} (min_rank max_rank requested : Nat)
    (results : List (SearchRec α)) : List (SearchRec α) :=
  (dedup_and_rank results).take (max min_rank (min max_rank requested))

/-- `_present`: the key is set and non-blank (`bool(value and value.strip())`). -/
def key_present (env : String → Option String) (key : String) : Bool :=
  match env key with
  | none => false
  | some v => decide (stripL v.data ≠ [])

/-- `", ".join(...)` and friends. -/
def joinSep (sep : String) : List String → String
  | [] => ""
  | [x] => x
  | x :: xs => x ++ sep ++ joinSep sep xs

/-- `required_keys_for`: the Exa key always, the provider key for the two
supported providers (a `ValueError` for any other provider string), the
Brave key iff the secondary search is enabled. -/
def required_keys_for (llm_provider : String) (enable_brave : Bool) :
    Except String (List String) :=
  if llm_provider = "GPT-5" then
    .ok (["EXA_API_KEY", "OPENAI_API_KEY"] ++
      (if enable_brave then ["BRAVE_API_KEY"] else []))
  else if llm_provider = "Claude Sonnet 4.5" then
    .ok (["EXA_API_KEY", "ANTHROPIC_API_KEY"] ++
      (if enable_brave then ["BRAVE_API_KEY"] else []))
  else
    .error ("Unsupported llm_provider " ++ llm_provider ++
      ". Choose GPT-5 or Claude Sonnet 4.5.")

/-- `assert_required_keys`: collect the missing keys; succeed when there
are none, otherwise fail with one message listing all of them. -/
def assert_required_keys (env : String → Option String)
    (llm_provider : String) (enable_brave : Bool) : Except String Unit :=
  match required_keys_for llm_provider enable_brave with
  | .error e => .error e
  | .ok keys =>
    let missing := keys.filter (fun k => !(key_present env k))
    if missing = [] then .ok ()
    else .error ("Missing required API keys: " ++ joinSep ", " missing ++
      ". Please set them in your environment or .env file.")

/-- Concrete environment for the C8 witness: only the Exa key is set. -/
def envW : String → Option String :=
  fun k => if k = "EXA_API_KEY" then some "exa-key-123" else none

/-! ## JSON values, rendering and parsing (`src/utils/json_utils.py`)

`json.loads` / `json.dumps` are modelled by an executable parser/renderer
pair over an exact JSON value type.  Numbers are exact decimals
(sign, magnitude, number of fractional digits): every Python float that
`json.dumps` emits is such a decimal literal and `loads(dumps(x)) == x`
holds for them, which is the behavior the round-trip claim relies on.
The renderer escapes the characters `json.dumps` must escape that the
parser decodes back; it emits compact separators and leaves non-ASCII
raw (`ensure_ascii=False` behavior) — choices invisible to parsing.
-/

/-- An exact decimal literal: `(-1)^neg * mag / 10^exp`, rendered with
exactly `exp` fractional digits. -/
structure DecNum where
  neg : Bool
  mag : Nat
  exp : Nat
deriving DecidableEq

mutual
inductive Json where
  | jnull : Json
  | jbool (b : Bool) : Json
  | jnum (d : DecNum) : Json
  | jstr (s : String) : Json
  | jarr (a : JArr) : Json
  | jobj (o : JObj) : Json

inductive JArr where
  | anil : JArr
  | acons (hd : Json) (tl : JArr) : JArr

inductive JObj where
  | onil : JObj
  | ocons (k : String) (v : Json) (tl : JObj) : JObj
end

def JArr.ofList : List Json → JArr
  | [] => .anil
  | v :: vs => .acons v (JArr.ofList vs)

mutual
/-- Fuel needed by the parser (arrays/objects consume one unit per level
and per element). -/
def jsizeV : Json → Nat
  | .jnull => 1
  | .jbool _ => 1
  | .jnum _ => 1
  | .jstr _ => 1
  | .jarr a => 1 + jsizeA a
  | .jobj o => 1 + jsizeO o

def jsizeA : JArr → Nat
  | .anil => 0
  | .acons v tl => 1 + max (jsizeV v) (jsizeA tl)

def jsizeO : JObj → Nat
  | .onil => 0
  | .ocons _ v tl => 1 + max (jsizeV v) (jsizeO tl)
end

/-- The big-endian decimal digits of a natural number ("0" for zero). -/
def natToDigits (n : Nat) : List Char :=
  if n = 0 then ['0']
  else (Nat.digits 10 n).reverse.map (fun d => Char.ofNat (48 + d))

/-- Exactly `e` fractional digits of `m` (left-padded with zeros). -/
def padDigits (e m : Nat) : List Char :=
  List.replicate (e - (natToDigits m).length) '0' ++ natToDigits m

def renderNum (d : DecNum) : List Char :=
  (if d.neg then ['-'] else []) ++
    (if d.exp = 0 then natToDigits d.mag
     else natToDigits (d.mag / 10 ^ d.exp) ++
       '.' :: padDigits d.exp (d.mag % 10 ^ d.exp))

/-- The escapes `json.dumps` must produce and the parser decodes back. -/
def escChar (c : Char) : List Char :=
  if c = '"' then ['\\', '"']
  else if c = '\\' then ['\\', '\\']
  else if c = '\n' then ['\\', 'n']
  else if c = '\t' then ['\\', 't']
  else if c = '\r' then ['\\', 'r']
  else [c]

def escList : List Char → List Char
  | [] => []
  | c :: cs => escChar c ++ escList cs

def renderStr (s : String) : List Char := '"' :: escList s.data ++ ['"']

mutual
def renderV : Json → List Char
  | .jnull => ['n', 'u', 'l', 'l']
  | .jbool true => ['t', 'r', 'u', 'e']
  | .jbool false => ['f', 'a', 'l', 's', 'e']
  | .jnum d => renderNum d
  | .jstr s => renderStr s
  | .jarr a => '[' :: renderA a ++ [']']
  | .jobj o => '\x7b' :: renderO o ++ ['\x7d']

def renderA : JArr → List Char
  | .anil => []
  | .acons v .anil => renderV v
  | .acons v tl => renderV v ++ ',' :: renderA tl

def renderO : JObj → List Char
  | .onil => []
  | .ocons k v .onil => renderStr k ++ ':' :: renderV v
  | .ocons k v tl => renderStr k ++ ':' :: renderV v ++ ',' :: renderO tl
end

/-- One JSON text for a value (models `json.dumps`). -/
def json_dumps (v : Json) : String := ⟨renderV v⟩

/-- JSON-level whitespace (the four characters `json.loads` skips). -/
def isWsChar (c : Char) : Bool :=
  c == ' ' || c == '\n' || c == '\t' || c == '\r'

def skipWsL : List Char → List Char
  | [] => []
  | c :: cs => if isWsChar c then skipWsL cs else c :: cs

def takeDigitsL : List Char → List Char × List Char
  | [] => ([], [])
  | c :: cs =>
    if isDigitChar c then
      let r := takeDigitsL cs
      (c :: r.1, r.2)
    else ([], c :: cs)

def parseNumber (cs : List Char) : Except String (DecNum × List Char) :=
  let sgn : Bool × List Char :=
    if startsWithL ['-'] cs then (true, cs.drop 1) else (false, cs)
  let ip := takeDigitsL sgn.2
  if ip.1 = [] then .error "invalid number"
  else if startsWithL ['.'] ip.2 then
    let fp := takeDigitsL (ip.2.drop 1)
    if fp.1 = [] then .error "invalid number"
    else .ok (⟨sgn.1, digitsToNat (ip.1 ++ fp.1), fp.1.length⟩, fp.2)
  else .ok (⟨sgn.1, digitsToNat ip.1, 0⟩, ip.2)

def escDecode (e : Char) : Option Char :=
  if e = '"' then some '"'
  else if e = '\\' then some '\\'
  else if e = '/' then some '/'
  else if e = 'n' then some '\n'
  else if e = 't' then some '\t'
  else if e = 'r' then some '\r'
  else if e = 'b' then some '\x08'
  else if e = 'f' then some '\x0c'
  else none

/-- String-body scanner (after the opening quote). -/
def strBody (acc : List Char) : List Char → Except String (String × List Char)
  | [] => .error "unterminated string"
  | c :: rest =>
    if c = '"' then .ok (⟨acc.reverse⟩, rest)
    else if c = '\\' then
      match rest with
      | [] => .error "unterminated escape"
      | e :: rest2 =>
        match escDecode e with
        | some d => strBody (d :: acc) rest2
        | none => .error "invalid escape"
    else strBody (c :: acc) rest

mutual
def parseV : Nat → List Char → Except String (Json × List Char)
  | 0, _ => .error "out of fuel"
  | fuel + 1, cs0 =>
    let cs := skipWsL cs0
    if startsWithL ['n', 'u', 'l', 'l'] cs then .ok (.jnull, cs.drop 4)
    else if startsWithL ['t', 'r', 'u', 'e'] cs then .ok (.jbool true, cs.drop 4)
    else if startsWithL ['f', 'a', 'l', 's', 'e'] cs then
      .ok (.jbool false, cs.drop 5)
    else if startsWithL ['"'] cs then
      match strBody [] (cs.drop 1) with
      | .ok (s, r) => .ok (.jstr s, r)
      | .error e => .error e
    else if startsWithL ['['] cs then
      let cs2 := skipWsL (cs.drop 1)
      if startsWithL [']'] cs2 then .ok (.jarr .anil, cs2.drop 1)
      else
        match parseItems fuel cs2 with
        | .ok (a, r) => .ok (.jarr a, r)
        | .error e => .error e
    else if startsWithL ['\x7b'] cs then
      let cs2 := skipWsL (cs.drop 1)
      if startsWithL ['\x7d'] cs2 then .ok (.jobj .onil, cs2.drop 1)
      else
        match parseEntries fuel cs2 with
        | .ok (o, r) => .ok (.jobj o, r)
        | .error e => .error e
    else
      match parseNumber cs with
      | .ok (d, r) => .ok (.jnum d, r)
      | .error e => .error e

def parseItems : Nat → List Char → Except String (JArr × List Char)
  | 0, _ => .error "out of fuel"
  | fuel + 1, cs =>
    match parseV fuel cs with
    | .error e => .error e
    | .ok (v, r) =>
      let r1 := skipWsL r
      if startsWithL [','] r1 then
        match parseItems fuel (r1.drop 1) with
        | .ok (tl, r3) => .ok (.acons v tl, r3)
        | .error e => .error e
      else if startsWithL [']'] r1 then .ok (.acons v .anil, r1.drop 1)
      else .error "expected comma or bracket"

def parseEntries : Nat → List Char → Except String (JObj × List Char)
  | 0, _ => .error "out of fuel"
  | fuel + 1, cs =>
    let cs1 := skipWsL cs
    if startsWithL ['"'] cs1 then
      match strBody [] (cs1.drop 1) with
      | .error e => .error e
      | .ok (k, r1) =>
        let r2 := skipWsL r1
        if startsWithL [':'] r2 then
          match parseV fuel (r2.drop 1) with
          | .error e => .error e
          | .ok (v, r3) =>
            let r4 := skipWsL r3
            if startsWithL [','] r4 then
              match parseEntries fuel (r4.drop 1) with
              | .ok (tl, r5) => .ok (.ocons k v tl, r5)
              | .error e => .error e
            else if startsWithL ['\x7d'] r4 then .ok (.ocons k v .onil, r4.drop 1)
            else .error "expected comma or brace"
        else .error "expected colon"
    else .error "expected key"
end

/-- `json.loads`: parse one value and require only whitespace after it. -/
def json_loads (s : String) : Except String Json :=
  match parseV (s.data.length + 1) s.data with
  | .error e => .error e
  | .ok (v, rest) => if skipWsL rest = [] then .ok v else .error "extra data"

/-- `str.find`: index of the first occurrence of a character, if any. -/
def firstIdx (l : List Char) (t : Char) : Option Nat :=
  match l with
  | [] => none
  | c :: cs =>
    if c = t then some 0
    else (firstIdx cs t).map (fun i => i + 1)

/-- `str.rfind`: index of the last occurrence of a character, if any. -/
def lastIdx (l : List Char) (t : Char) : Option Nat :=
  match l with
  | [] => none
  | c :: cs =>
    match lastIdx cs t with
    | some i => some (i + 1)
    | none => if c = t then some 0 else none

/-- `s[a:b]` for `0 ≤ a ≤ b`. -/
def sliceL (l : List Char) (a b : Nat) : List Char := (l.take b).drop a

/-- `str.replace` on a non-empty pattern `p :: ps`: replace every
non-overlapping occurrence, scanning left to right. -/
def replaceAll (l : List Char) (p : Char) (ps rep : List Char) : List Char :=
  match l with
  | [] => []
  | c :: cs =>
    if startsWithL (p :: ps) (c :: cs) then
      rep ++ replaceAll ((c :: cs).drop (ps.length + 1)) p ps rep
    else c :: replaceAll cs p ps rep
  termination_by l.length
  decreasing_by
    · simp only [List.drop_succ_cons, List.length_cons, List.length_drop]
      omega
    · simp

/-- The one repair pass of `coerce_json_object`:
`.replace(",\n\n", "\n\n").replace(",\n \n", "\n \n")`. -/
def repairArtifacts (l : List Char) : List Char :=
  replaceAll (replaceAll l ',' ['\n', '\n'] ['\n', '\n'])
    ',' ['\n', ' ', '\n'] ['\n', ' ', '\n']

/-- `coerce_json_object`: strip; slice between the first `\x7b` and the
last `\x7d` when the text does not already start and end with them; parse;
on failure repair once and reparse, letting that parse error propagate. -/
def coerce_json_object (raw : String) : Except String Json :=
  let t : String := ⟨stripL raw.data⟩
  let t2 : String :=
    if !(pyStartsWith t "\x7b") || !(pyEndsWith t "\x7d") then
      match firstIdx t.data '\x7b', lastIdx t.data '\x7d' with
      | some s, some e => if e > s then ⟨sliceL t.data s (e + 1)⟩ else t
      | some _, none => t
      | none, some _ => t
      | none, none => t
    else t
  match json_loads t2 with
  | .ok v => .ok v
  | .error _ => json_loads ⟨repairArtifacts t2.data⟩

/-- Modelled from the claim's words: trim whitespace; if the trimmed text
does not both start with `\x7b` and end with `\x7d`, slice between the
first `\x7b` and the last `\x7d` (possible when the former precedes the
latter); strict-parse; on failure make exactly one repair pass removing
the known trailing-artifact patterns and reparse; if that also fails,
propagate the parse error — never a default object. -/
def claimCoerce (raw : String) : Except String Json :=
  let t : String := ⟨stripL raw.data⟩
  let t2 : String :=
    if pyStartsWith t "\x7b" && pyEndsWith t "\x7d" then t
    else
      match firstIdx t.data '\x7b', lastIdx t.data '\x7d' with
      | some s, some e => if s < e then ⟨sliceL t.data s (e + 1)⟩ else t
      | some _, none => t
      | none, some _ => t
      | none, none => t
  match json_loads t2 with
  | .ok v => .ok v
  | .error _ => json_loads ⟨repairArtifacts t2.data⟩

/-! ## Structured Response schema (`src/schemas/responses.py`)

Pydantic validation is modelled field by field: required fields must be
present with the right type, Optional fields accept null or a missing key,
and every `HttpUrl`-typed field must be an absolute http(s) URL with a
non-empty host (normalization is not modelled: a valid response object
already carries the stored URL text).  Floats are the exact decimals of
the JSON layer.
-/

structure ExampleRec where
  title : String
  url : String
  description : Option String
  image_url : Option String
  source_domain : Option String
deriving DecidableEq

structure ConsiderationsRec where
  tradeoffs : List String
  accessibility : List String
  performance : List String
  browser_support : List String
deriving DecidableEq

structure SourceRec where
  title : String
  url : String
  publisher : Option String
  publish_date : Option String
  relevance_score : Option DecNum
deriving DecidableEq

structure DesignResearchResponse where
  query_classification : Option String
  summary : String
  best_practices : List String
  examples : List ExampleRec
  considerations : ConsiderationsRec
  sources : List SourceRec
deriving DecidableEq

/-- Pydantic `HttpUrl` acceptance: absolute http(s) URL with a non-empty
host. -/
def isHttpUrl (s : String) : Bool :=
  if pyStartsWith s "http://" then
    decide ((s.data.drop 7).takeWhile (fun c => c ≠ '/') ≠ [])
  else if pyStartsWith s "https://" then
    decide ((s.data.drop 8).takeWhile (fun c => c ≠ '/') ≠ [])
  else false

def optStrJson : Option String → Json
  | none => .jnull
  | some s => .jstr s

def strListJson (l : List String) : Json := .jarr (JArr.ofList (l.map .jstr))

def exampleToJson (e : ExampleRec) : Json :=
  .jobj (.ocons "title" (.jstr e.title)
    (.ocons "url" (.jstr e.url)
      (.ocons "description" (optStrJson e.description)
        (.ocons "image_url" (optStrJson e.image_url)
          (.ocons "source_domain" (optStrJson e.source_domain) .onil)))))

def considerationsToJson (c : ConsiderationsRec) : Json :=
  .jobj (.ocons "tradeoffs" (strListJson c.tradeoffs)
    (.ocons "accessibility" (strListJson c.accessibility)
      (.ocons "performance" (strListJson c.performance)
        (.ocons "browser_support" (strListJson c.browser_support) .onil))))

def sourceToJson (s : SourceRec) : Json :=
  .jobj (.ocons "title" (.jstr s.title)
    (.ocons "url" (.jstr s.url)
      (.ocons "publisher" (optStrJson s.publisher)
        (.ocons "publish_date" (optStrJson s.publish_date)
          (.ocons "relevance_score"
            (match s.relevance_score with
              | none => .jnull
              | some d => .jnum d) .onil)))))

/-- Serialization of a response (field order is the model's declaration
order, as pydantic emits it). -/
def responseToJson (r : DesignResearchResponse) : Json :=
  .jobj (.ocons "query_classification" (optStrJson r.query_classification)
    (.ocons "summary" (.jstr r.summary)
      (.ocons "best_practices" (strListJson r.best_practices)
        (.ocons "examples" (.jarr (JArr.ofList (r.examples.map exampleToJson)))
          (.ocons "considerations" (considerationsToJson r.considerations)
            (.ocons "sources" (.jarr (JArr.ofList (r.sources.map sourceToJson)))
              .onil))))))

/-- Key lookup in a parsed object: a later duplicate key overwrites an
earlier one, as in the dict `json.loads` builds. -/
def JObj.lookupLast : JObj → String → Option Json
  | .onil, _ => none
  | .ocons k' v tl, k =>
    match JObj.lookupLast tl k with
    | some r => some r
    | none => if k' = k then some v else none

def getReq (o : JObj) (k : String) : Except String Json :=
  match o.lookupLast k with
  | some v => .ok v
  | none => .error ("missing field " ++ k)

def getOpt (o : JObj) (k : String) : Json :=
  (o.lookupLast k).getD .jnull

def asStr : Json → Except String String
  | .jstr s => .ok s
  | _ => .error "expected a string"

def asOptStr : Json → Except String (Option String)
  | .jnull => .ok none
  | .jstr s => .ok (some s)
  | _ => .error "expected a string or null"

def asHttpUrl : Json → Except String String
  | .jstr s => if isHttpUrl s then .ok s else .error "invalid URL"
  | _ => .error "expected a URL string"

def asOptHttpUrl : Json → Except String (Option String)
  | .jnull => .ok none
  | .jstr s => if isHttpUrl s then .ok (some s) else .error "invalid URL"
  | _ => .error "expected a URL string or null"

def asOptNum : Json → Except String (Option DecNum)
  | .jnull => .ok none
  | .jnum d => .ok (some d)
  | _ => .error "expected a number or null"

def strsOf : JArr → Except String (List String)
  | .anil => .ok []
  | .acons v tl => do
    let s ← asStr v
    let rest ← strsOf tl
    .ok (s :: rest)

def asStrList : Json → Except String (List String)
  | .jarr a => strsOf a
  | _ => .error "expected a list of strings"

def validateExample (j : Json) : Except String ExampleRec :=
  match j with
  | .jobj o => do
    let tj ← getReq o "title"
    let t ← asStr tj
    let uj ← getReq o "url"
    let u ← asHttpUrl uj
    let d ← asOptStr (getOpt o "description")
    let iu ← asOptHttpUrl (getOpt o "image_url")
    let sd ← asOptStr (getOpt o "source_domain")
    .ok ⟨t, u, d, iu, sd⟩
  | _ => .error "expected an example object"

def examplesOf : JArr → Except String (List ExampleRec)
  | .anil => .ok []
  | .acons v tl => do
    let e ← validateExample v
    let rest ← examplesOf tl
    .ok (e :: rest)

/-- A `List[str]` field with `default_factory=list`: a missing key gives
`[]`, a present value must be a list of strings. -/
def getStrListDefault (o : JObj) (k : String) : Except String (List String) :=
  match o.lookupLast k with
  | none => .ok []
  | some v => asStrList v

def validateConsiderations (j : Json) : Except String ConsiderationsRec :=
  match j with
  | .jobj o => do
    let t ← getStrListDefault o "tradeoffs"
    let a ← getStrListDefault o "accessibility"
    let p ← getStrListDefault o "performance"
    let b ← getStrListDefault o "browser_support"
    .ok ⟨t, a, p, b⟩
  | _ => .error "expected a considerations object"

def validateSource (j : Json) : Except String SourceRec :=
  match j with
  | .jobj o => do
    let tj ← getReq o "title"
    let t ← asStr tj
    let uj ← getReq o "url"
    let u ← asHttpUrl uj
    let p ← asOptStr (getOpt o "publisher")
    let d ← asOptStr (getOpt o "publish_date")
    let sc ← asOptNum (getOpt o "relevance_score")
    .ok ⟨t, u, p, d, sc⟩
  | _ => .error "expected a source object"

def sourcesOf : JArr → Except String (List SourceRec)
  | .anil => .ok []
  | .acons v tl => do
    let s ← validateSource v
    let rest ← sourcesOf tl
    .ok (s :: rest)

/-- `DesignResearchResponse(**data)`: strict field-by-field validation. -/
def validateResponse (j : Json) : Except String DesignResearchResponse :=
  match j with
  | .jobj o => do
    let qc ← asOptStr (getOpt o "query_classification")
    let sj ← getReq o "summary"
    let s ← asStr sj
    let bj ← getReq o "best_practices"
    let b ← asStrList bj
    let ej ← getReq o "examples"
    let es ← match ej with
      | .jarr a => examplesOf a
      | _ => .error "expected a list of examples"
    let cj ← getReq o "considerations"
    let c ← validateConsiderations cj
    let srj ← getReq o "sources"
    let ss ← match srj with
      | .jarr a => sourcesOf a
      | _ => .error "expected a list of sources"
    .ok ⟨qc, s, b, es, c, ss⟩
  | _ => .error "expected a response object"

/-- A valid Structured Response object: every URL-typed field it carries
parses as an absolute URL (the property §3/§4.7 requires of validated
responses). -/
def ValidResponse (r : DesignResearchResponse) : Prop :=
  (∀ e ∈ r.examples, isHttpUrl e.url = true ∧
    ∀ u, e.image_url = some u → isHttpUrl u = true) ∧
  (∀ s ∈ r.sources, isHttpUrl s.url = true)

/-- A concrete valid response used to exercise the round-trip. -/
def respW : DesignResearchResponse :=
  ⟨some "pattern",
   "Cards with clear affordances work well.",
   ["Use consistent spacing"],
   [⟨"Stripe pricing", "https://stripe.com/pricing", some "Clean tiers",
     none, some "stripe.com"⟩],
   ⟨["Density"], ["Label controls"], [], []⟩,
   [⟨"Card research", "https://baymard.com/blog/cards", some "Baymard",
     none, some ⟨false, 92, 2⟩⟩]⟩

/-! ## Lemmas: image heuristic -/

theorem sizeStep_ge (acc : Int) (d : Option Int) : acc ≤ sizeStep acc d := by
  cases d with
  | none => exact le_refl _
  | some v =>
    simp only [sizeStep]
    split_ifs <;> first | exact le_max_left _ _ | exact le_refl _

theorem candScore_ge (c : Candidate) : -10 ≤ candScore c := by
  have h1 := sizeStep_ge 0 (c.width, c.height).1
  have h2 := sizeStep_ge (sizeStep 0 (c.width, c.height).1) (c.width, c.height).2
  unfold candScore score_candidate
  split_ifs <;> omega

theorem is_blocked_eq (u : String) :
    is_blocked u =
      (SKIP_IMAGE_DOMAINS.any (fun d => pyEndsWith (domain_of u) d)
        || BLOCKLIST_SUBSTRINGS.any (fun s => pyContains (pyLower u) s)
        || !(ALLOWED_EXTS.any (fun e => pyEndsWith (pyLower u) e))) := by
  unfold is_blocked
  cases hA : SKIP_IMAGE_DOMAINS.any (fun d => pyEndsWith (domain_of u) d) <;>
    cases hB : BLOCKLIST_SUBSTRINGS.any (fun s => pyContains (pyLower u) s) <;>
      cases hC : ALLOWED_EXTS.any (fun e => pyEndsWith (pyLower u) e) <;>
        simp [hA, hB, hC]

theorem sizeBonus_eq (w h : Option Int) :
    sizeStep (sizeStep 0 w) h =
      (if dimAtLeast w 600 || dimAtLeast h 600 then 3
       else if dimAtLeast w 300 || dimAtLeast h 300 then 2
       else if dimAtLeast w 120 || dimAtLeast h 120 then 1
       else 0) := by
  rcases w with _ | dw <;> rcases h with _ | dh <;>
    simp only [sizeStep, dimAtLeast, MIN_DIMENSION, Bool.or_false,
      Bool.false_or, Bool.or_self, decide_eq_true_eq, Bool.or_eq_true] <;>
    split_ifs <;> first | omega | simp_all

theorem candScore_eq_claim (c : Candidate) : candScore c = claimScore c := by
  rcases c with ⟨u, m, w, h⟩
  show score_candidate u m (w, h) = _
  unfold score_candidate claimScore
  rw [is_blocked_eq, sizeBonus_eq]

theorem selectLoop_argmax :
    ∀ (cs : List Candidate) (b : Option String) (s : Int),
      selectLoop cs b s = loopSpec (firstArgmax cs) b s
  | [], b, s => by simp [selectLoop, firstArgmax, loopSpec]
  | c :: cs, b, s => by
    have ih1 := selectLoop_argmax cs (some c.url) (candScore c)
    have ih2 := selectLoop_argmax cs b s
    simp only [selectLoop, firstArgmax, ih1, ih2]
    rcases hm : firstArgmax cs with _ | ⟨u, m⟩ <;> simp only [hm] <;>
      (try split_ifs) <;> simp only [loopSpec] <;> (try split_ifs) <;>
      first | rfl | omega

theorem firstArgmax_eq_none :
    ∀ cs : List Candidate, firstArgmax cs = none ↔ cs = [] := by
  intro cs
  cases cs with
  | nil => simp [firstArgmax]
  | cons c cs =>
    simp only [firstArgmax]
    rcases firstArgmax cs with _ | ⟨u, m⟩ <;> simp
    split <;> simp

theorem firstArgmax_decomp :
    ∀ (cs : List Candidate) (u : String) (m : Int),
      firstArgmax cs = some (u, m) →
      ∃ pre c post, cs = pre ++ c :: post ∧ c.url = u ∧ candScore c = m ∧
        (∀ c' ∈ pre, candScore c' < m) ∧ (∀ c' ∈ cs, candScore c' ≤ m)
  | [], u, m => by intro h; cases h
  | c :: cs, u, m => by
    intro h
    unfold firstArgmax at h
    rcases hm : firstArgmax cs with _ | ⟨u', m'⟩ <;> rw [hm] at h <;>
      dsimp only at h
    · rcases (firstArgmax_eq_none cs).mp hm with rfl
      rw [Option.some_inj, Prod.mk.injEq] at h
      refine ⟨[], c, [], rfl, h.1, h.2, by simp, ?_⟩
      intro c' hc'
      rcases List.mem_singleton.mp hc' with rfl
      have := h.2
      omega
    · rcases firstArgmax_decomp cs u' m' hm with
        ⟨pre, c₀, post, rfl, hurl, hscore, hpre, hall⟩
      by_cases hgt : m' > candScore c
      · rw [if_pos hgt] at h
        injection h with h'
        injection h' with h1 h2
        subst h1; subst h2
        refine ⟨c :: pre, c₀, post, rfl, hurl, hscore, ?_, ?_⟩
        · intro c' hc'
          rcases List.mem_cons.mp hc' with rfl | hc'
          · omega
          · exact hpre c' hc'
        · intro c' hc'
          rcases List.mem_cons.mp hc' with rfl | hc'
          · omega
          · exact hall c' hc'
      · rw [if_neg hgt] at h
        injection h with h'
        injection h' with h1 h2
        subst h1; subst h2
        refine ⟨[], c, pre ++ c₀ :: post, rfl, rfl, rfl, by simp, ?_⟩
        intro c' hc'
        rcases List.mem_cons.mp hc' with rfl | hc'
        · exact le_refl _
        · exact le_trans (hall c' hc') (by omega)

theorem find?_first {α : Type} {p : α → Bool} :
    ∀ (pre : List α) (c : α) (post : List α),
      (∀ x ∈ pre, p x = false) → p c = true →
      List.find? p (pre ++ c :: post) = some c
  | [], c, post => by
    intro _ hc
    simp [List.find?, hc]
  | x :: pre, c, post => by
    intro hpre hc
    have hx := hpre x (List.mem_cons_self _ _)
    simp only [List.cons_append, List.find?, hx]
    exact find?_first pre c post (fun y hy => hpre y (List.mem_cons_of_mem _ hy)) hc

theorem select_eq_claimSelect (cs : List Candidate) :
    extract_primary_image_select cs = claimSelect cs := by
  have hscore : claimScore = candScore := funext fun c => (candScore_eq_claim c).symm
  unfold extract_primary_image_select claimSelect
  rw [hscore, selectLoop_argmax]
  rcases hm : firstArgmax cs with _ | ⟨u, m⟩
  · rcases (firstArgmax_eq_none cs).mp hm with rfl
    simp [loopSpec, List.find?]
  · rcases firstArgmax_decomp cs u m hm with
      ⟨pre, c₀, post, hcs, hurl, hscore₀, hpre, hall⟩
    have hm999 : m > -999 := by
      have := candScore_ge c₀; omega
    dsimp only [loopSpec]
    rw [if_pos hm999]
    dsimp only
    by_cases h1 : (1 : Int) ≤ m
    · have hfind :
          List.find? (fun c =>
            decide (1 ≤ candScore c ∧ ∀ c' ∈ cs, candScore c' ≤ candScore c))
            cs = some c₀ := by
        rw [hcs]
        apply find?_first
        · intro x hx
          simp only [decide_eq_false_iff_not, not_and, not_forall]
          intro _
          refine ⟨c₀, ?_, ?_⟩
          · exact List.mem_append_right _ (List.mem_cons_self _ _)
          · have := hpre x hx; omega
        · simp only [decide_eq_true_eq]
          refine ⟨by omega, fun c' hc' => ?_⟩
          have := hall c' (by rw [hcs]; exact hc')
          omega
      rw [hfind]
      simp only [if_pos (by omega : (1:Int) ≤ m), hurl]
    · have hfind :
          List.find? (fun c =>
            decide (1 ≤ candScore c ∧ ∀ c' ∈ cs, candScore c' ≤ candScore c))
            cs = none := by
        rw [List.find?_eq_none]
        intro x hx
        simp only [decide_eq_true_eq, not_and]
        intro hx1 _
        have := hall x hx
        omega
      rw [hfind]
      simp only [if_neg h1]

theorem debugMetaPhase_eq (metas : List String) :
    debugMetaPhase metas =
      metas.find? (fun m => decide (1 ≤ claimScore ⟨m, true, none, none⟩)) := by
  induction metas with
  | nil => rfl
  | cons m ms ih =>
    simp only [debugMetaPhase, List.find?]
    have hsc : score_candidate m true (none, none) = claimScore ⟨m, true, none, none⟩ :=
      candScore_eq_claim ⟨m, true, none, none⟩
    by_cases h : (1 : Int) ≤ claimScore ⟨m, true, none, none⟩
    · rw [if_pos (by rw [ge_iff_le, hsc]; exact h)]
      simp [h]
    · rw [if_neg (by rw [ge_iff_le, hsc]; exact h)]
      simp [h, ih]

theorem debugImgPhase_eq (imgs : List (String × Option Int × Option Int)) :
    debugImgPhase imgs =
      imgs.find? (fun p => decide (1 ≤ claimScore ⟨p.1, false, p.2.1, p.2.2⟩)) := by
  induction imgs with
  | nil => rfl
  | cons p ps ih =>
    rcases p with ⟨u, w, h⟩
    simp only [debugImgPhase, List.find?]
    have heq : score_candidate u false (w, h) = claimScore ⟨u, false, w, h⟩ :=
      candScore_eq_claim ⟨u, false, w, h⟩
    by_cases hc : (1 : Int) ≤ claimScore ⟨u, false, w, h⟩
    · rw [if_pos (by rw [ge_iff_le, heq]; exact hc)]
      simp [hc]
    · rw [if_neg (by rw [ge_iff_le, heq]; exact hc)]
      simp [hc, ih]

/-! ## Claim theorems: image heuristic -/

/-- C1 counterexample: with no meta candidates and two `<img>` candidates
scoring 1 and 3, the debug heuristic (the variant the parallel pipeline
uses) returns the first acceptable candidate, not the highest-scoring one
demanded by the claim. -/
theorem C1_counterexample :
    extract_primary_image_debug_select []
        [("https://x.com/a.jpg", some 120, none),
         ("https://x.com/b.jpg", some 600, none)] =
      (some "https://x.com/a.jpg", "dom", (some 120, none)) ∧
    claimSelect (combinedCandidates []
        [("https://x.com/a.jpg", some 120, none),
         ("https://x.com/b.jpg", some 600, none)]) =
      some "https://x.com/b.jpg" ∧
    (some "https://x.com/a.jpg" : Option String) ≠ some "https://x.com/b.jpg" := by
  refine ⟨by decide, by decide, by decide⟩

/-- C1 (amended): the candidate scoring rule is exactly as the claim
states; `extract_primary_image` does return the highest-scoring candidate
(first-seen on ties, accepted only when the winning score is ≥ 1); but the
debug variant used by the parallel pipeline instead returns the first meta
candidate scoring ≥ 1, else the first `<img>` candidate scoring ≥ 1, else
no image. -/
theorem C1_image_heuristic_amended :
    (∀ (url : String) (meta : Bool) (w h : Option Int),
      score_candidate url meta (w, h) = claimScore ⟨url, meta, w, h⟩) ∧
    (∀ cs, extract_primary_image_select cs = claimSelect cs) ∧
    (∀ metas imgs,
      extract_primary_image_debug_select metas imgs =
        claimDebugSelect metas imgs) := by
  refine ⟨fun url meta w h => candScore_eq_claim ⟨url, meta, w, h⟩,
    select_eq_claimSelect, fun metas imgs => ?_⟩
  unfold extract_primary_image_debug_select claimDebugSelect
  rw [debugMetaPhase_eq, debugImgPhase_eq]
  cases List.find?
      (fun m => decide (1 ≤ claimScore ⟨m, true, none, none⟩)) metas with
  | some m => rfl
  | none =>
    cases hi : List.find?
        (fun p => decide (1 ≤ claimScore ⟨p.1, false, p.2.1, p.2.2⟩)) imgs with
    | none => rfl
    | some p => rcases p with ⟨u, w, h⟩; rfl

/-! ## Lemmas: deduplicator / ranker -/

theorem insertBy_perm {α : Type} (le : α → α → Bool) (x : α) :
    ∀ l : List α, (insertBy le x l).Perm (x :: l)
  | [] => List.Perm.refl _
  | y :: ys => by
    simp only [insertBy]
    by_cases hb : (le y x && !(le x y)) = true
    · rw [if_pos hb]
      exact ((insertBy_perm le x ys).cons y).trans (List.Perm.swap x y ys)
    · rw [if_neg hb]

theorem pySortBy_perm {α : Type} (le : α → α → Bool) :
    ∀ l : List α, (pySortBy le l).Perm l
  | [] => List.Perm.refl _
  | x :: xs =>
    (insertBy_perm le x (pySortBy le xs)).trans ((pySortBy_perm le xs).cons x)

theorem insertBy_pairwise {α : Type} (le : α → α → Bool)
    (htot : ∀ a b, le a b = true ∨ le b a = true)
    (htrans : ∀ a b c, le a b = true → le b c = true → le a c = true) (x : α) :
    ∀ l : List α, l.Pairwise (fun a b => le a b = true) →
      (insertBy le x l).Pairwise (fun a b => le a b = true)
  | [], _ => by simp [insertBy]
  | y :: ys, h => by
    rcases List.pairwise_cons.mp h with ⟨hy, hys⟩
    simp only [insertBy]
    by_cases hb : (le y x && !(le x y)) = true
    · rw [if_pos hb]
      rw [Bool.and_eq_true] at hb
      refine List.pairwise_cons.mpr ⟨?_, insertBy_pairwise le htot htrans x ys hys⟩
      intro b hbmem
      rcases List.mem_cons.mp ((insertBy_perm le x ys).mem_iff.mp hbmem) with rfl | hbys
      · exact hb.1
      · exact hy b hbys
    · rw [if_neg hb]
      have hxy : le x y = true := by
        rcases htot x y with h' | h'
        · exact h'
        · by_cases hxy' : le x y = true
          · exact hxy'
          · exact absurd (by simp [h', hxy']) hb
      refine List.pairwise_cons.mpr ⟨?_, h⟩
      intro b hbmem
      rcases List.mem_cons.mp hbmem with rfl | hbys
      · exact hxy
      · exact htrans x y b hxy (hy b hbys)

theorem pySortBy_pairwise {α : Type} (le : α → α → Bool)
    (htot : ∀ a b, le a b = true ∨ le b a = true)
    (htrans : ∀ a b c, le a b = true → le b c = true → le a c = true) :
    ∀ l : List α, (pySortBy le l).Pairwise (fun a b => le a b = true)
  | [] => by simp [pySortBy]
  | x :: xs =>
    insertBy_pairwise le htot htrans x (pySortBy le xs)
      (pySortBy_pairwise le htot htrans xs)

theorem scoreDescLe_total {α : Type} (a b : SearchRec α) :
    scoreDescLe a b = true ∨ scoreDescLe b a = true := by
  unfold scoreDescLe
  rcases le_total b.score a.score with h | h <;> simp [h]

theorem scoreDescLe_trans {α : Type} (a b c : SearchRec α) :
    scoreDescLe a b = true → scoreDescLe b c = true → scoreDescLe a c = true := by
  unfold scoreDescLe
  simp only [decide_eq_true_eq]
  intro h1 h2
  exact le_trans h2 h1

theorem foldr_max_nonneg : ∀ l : List ℚ, 0 ≤ l.foldr max 0
  | [] => le_refl _
  | x :: xs => le_trans (foldr_max_nonneg xs) (le_max_right x _)

theorem foldl_max_filter (cond : String × ℚ → Bool) :
    ∀ (ps : List (String × ℚ)) (acc : ℚ), 0 ≤ acc →
      ps.foldl (fun a p => if cond p then max a p.2 else a) acc =
        max acc (((ps.filter cond).map Prod.snd).foldr max 0)
  | [], acc, h => by simp [max_eq_left h]
  | p :: ps, acc, h => by
    by_cases hc : cond p = true
    · simp only [List.foldl_cons, List.filter_cons, hc, if_true, List.map_cons,
        List.foldr_cons]
      rw [foldl_max_filter cond ps (max acc p.2) (le_trans h (le_max_left _ _))]
      rw [max_assoc]
    · simp only [List.foldl_cons, List.filter_cons, hc, List.map_cons,
        Bool.false_eq_true, if_false]
      exact foldl_max_filter cond ps acc h

theorem authority_eq (u : String) : authority_for u = specAuthority u := by
  unfold authority_for specAuthority
  rw [foldl_max_filter _ _ 0 (le_refl 0)]
  exact max_eq_right (foldr_max_nonneg _)

theorem addScore_eq_spec {α : Type} :
    (addScore : SearchRec α → SearchRec α) = specAddScore :=
  funext fun r => by simp [addScore, specAddScore, authority_eq]

theorem dedupFirst_mem {α : Type} :
    ∀ (l : List (SearchRec α)) (x : SearchRec α), x ∈ dedupFirst l → x ∈ l
  | [], x => by intro h; rw [dedupFirst] at h; cases h
  | c :: cs, x => by
    intro h
    rw [dedupFirst] at h
    rcases List.mem_cons.mp h with rfl | h'
    · exact List.mem_cons_self _ _
    · exact List.mem_cons_of_mem _
        (List.mem_of_mem_filter (dedupFirst_mem _ x h'))
  termination_by l => l.length
  decreasing_by
    simp only [List.length_cons]
    have := List.length_filter_le (fun r => decide (r.url ≠ c.url)) cs
    omega

theorem dedupFirst_urls {α : Type} :
    ∀ l : List (SearchRec α),
      (dedupFirst l).Pairwise (fun a b => a.url ≠ b.url)
  | [] => by rw [dedupFirst]; exact List.Pairwise.nil
  | c :: cs => by
    rw [dedupFirst]
    refine List.pairwise_cons.mpr ⟨?_, dedupFirst_urls _⟩
    intro b hb
    have hbf := dedupFirst_mem _ b hb
    have hne := List.of_mem_filter hbf
    simp only [decide_eq_true_eq] at hne
    exact fun he => hne (he.symm)
  termination_by l => l.length
  decreasing_by
    simp only [List.length_cons]
    have := List.length_filter_le (fun r => decide (r.url ≠ c.url)) cs
    omega

theorem dedupPass_eq {α : Type} :
    ∀ (l : List (SearchRec α)) (seen : List String),
      dedupPass l seen =
        (dedupFirst (l.filter
          (fun r => decide (r.url ≠ "" ∧ r.url ∉ seen)))).map addScore
  | [], seen => by rw [dedupPass, List.filter_nil, dedupFirst, List.map_nil]
  | c :: cs, seen => by
    by_cases hc : c.url = "" ∨ c.url ∈ seen
    · rw [dedupPass, if_pos hc, dedupPass_eq cs seen]
      have hpc : decide (c.url ≠ "" ∧ c.url ∉ seen) = false := by
        simp only [decide_eq_false_iff_not, not_and]
        intro h1 h2
        rcases hc with hc | hc
        · exact h1 hc
        · exact h2 hc
      rw [List.filter_cons, hpc]
      simp
    · rw [dedupPass, if_neg hc, dedupPass_eq cs (c.url :: seen)]
      push_neg at hc
      have hpc : decide (c.url ≠ "" ∧ c.url ∉ seen) = true := by
        simp only [decide_eq_true_eq]
        exact hc
      rw [List.filter_cons, hpc, if_pos rfl]
      rw [dedupFirst, List.map_cons]
      have hff :
          cs.filter (fun r => decide (r.url ≠ "" ∧ r.url ∉ c.url :: seen)) =
            (cs.filter (fun r => decide (r.url ≠ "" ∧ r.url ∉ seen))).filter
              (fun r => decide (r.url ≠ c.url)) := by
        rw [List.filter_filter]
        apply List.filter_congr
        intro r _
        rw [← Bool.decide_and, decide_eq_decide]
        simp only [List.mem_cons]
        tauto
      rw [hff]

/-! ## Claim theorems: deduplicator / ranker -/

/-- C2 counterexample: a single record whose url is empty (Python treats a
missing or empty url as falsy) is dropped by `dedup_and_rank`, while the
claimed pipeline keeps its first occurrence. -/
theorem C2_counterexample :
    dedup_and_rank [(⟨"", 0, "a title"⟩ : SearchRec String)] = [] ∧
    claimRank [(⟨"", 0, "a title"⟩ : SearchRec String)] =
      [(⟨"", 0, "a title"⟩ : SearchRec String)] ∧
    dedup_and_rank [(⟨"", 0, "a title"⟩ : SearchRec String)] ≠
      claimRank [(⟨"", 0, "a title"⟩ : SearchRec String)] := by
  have h1 : dedup_and_rank [(⟨"", 0, "a title"⟩ : SearchRec String)] = [] := by
    decide
  have h2 : claimRank [(⟨"", 0, "a title"⟩ : SearchRec String)] =
      [(⟨"", 0, "a title"⟩ : SearchRec String)] := by
    unfold claimRank
    rw [dedupFirst, List.filter_nil, dedupFirst]
    have hs : specAddScore (⟨"", 0, "a title"⟩ : SearchRec String) =
        ⟨"", 0, "a title"⟩ := by
      have h0 : specAuthority "" = 0 := by decide
      unfold specAddScore
      rw [h0]
    rw [List.map_cons, List.map_nil, hs]
    rfl
  exact ⟨h1, h2, by rw [h1, h2]; simp⟩

/-- C2 (amended): `dedup_and_rank` first drops records with a missing or
empty URL; among the rest it keeps only the first occurrence of each URL
(exact, case-sensitive), assigns each survivor the maximum weight among
authority domains that suffix-match the URL's host (0.0 if none), and
returns the survivors stably sorted in non-increasing score order, so the
output contains no two entries with the same URL. -/
theorem C2_rank_amended {α : Type} (l : List (SearchRec α)) :
    dedup_and_rank l = amendedRank l ∧
    ((dedup_and_rank l).map SearchRec.url).Nodup ∧
    (dedup_and_rank l).Pairwise (fun a b => b.score ≤ a.score) := by
  have hpred : (fun r : SearchRec α =>
      decide (r.url ≠ "" ∧ r.url ∉ ([] : List String))) =
      (fun r : SearchRec α => decide (r.url ≠ "")) := by
    funext r
    simp
  have heq : dedup_and_rank l = amendedRank l := by
    unfold dedup_and_rank amendedRank
    rw [dedupPass_eq l [], hpred, addScore_eq_spec]
  refine ⟨heq, ?_, ?_⟩
  · have hperm : (dedup_and_rank l).Perm
        ((dedupFirst (l.filter (fun r => decide (r.url ≠ "")))).map addScore) := by
      unfold dedup_and_rank
      rw [dedupPass_eq l [], hpred]
      exact pySortBy_perm _ _
    rw [(hperm.map SearchRec.url).nodup_iff, List.map_map]
    show (List.map (fun r : SearchRec α => r.url)
      (dedupFirst (l.filter (fun r => decide (r.url ≠ ""))))).Nodup
    unfold List.Nodup
    rw [List.pairwise_map]
    exact dedupFirst_urls _
  · have := pySortBy_pairwise (scoreDescLe (α := α)) scoreDescLe_total
      scoreDescLe_trans (dedupPass l [])
    exact (this.imp (fun h => by
      simpa [scoreDescLe, decide_eq_true_eq] using h))

/-- C10: `dedup_and_rank` returns, up to the final stable sort's
permutation, exactly the records whose url is non-empty and not an earlier
record's url, each identical to the input record except for the `score`
field, which is set to the URL's authority weight; nothing else is dropped
or altered. -/
theorem C10_rank_frame {α : Type} (l : List (SearchRec α)) :
    (dedup_and_rank l).Perm
      ((dedupFirst (l.filter (fun r => decide (r.url ≠ "")))).map addScore) ∧
    ∀ r ∈ dedup_and_rank l, ∃ r' ∈ l,
      r.url = r'.url ∧ r.extra = r'.extra ∧ r.score = authority_for r'.url := by
  have hpred : (fun r : SearchRec α =>
      decide (r.url ≠ "" ∧ r.url ∉ ([] : List String))) =
      (fun r : SearchRec α => decide (r.url ≠ "")) := by
    funext r
    simp
  have hperm : (dedup_and_rank l).Perm
      ((dedupFirst (l.filter (fun r => decide (r.url ≠ "")))).map addScore) := by
    unfold dedup_and_rank
    rw [dedupPass_eq l [], hpred]
    exact pySortBy_perm _ _
  refine ⟨hperm, ?_⟩
  intro r hr
  have hr' := hperm.mem_iff.mp hr
  rcases List.mem_map.mp hr' with ⟨r₀, hr₀, rfl⟩
  refine ⟨r₀, List.mem_of_mem_filter (dedupFirst_mem _ r₀ hr₀), rfl, rfl, rfl⟩

/-! ## Lemmas: parallel extractor -/

theorem fetch_single_url (co : String → Option String)
    (io : String → Option (Option String × String × (Option Int × Option Int)))
    (inc : Bool) (r : RankedRec) :
    (fetch_single co io inc r).url = r.url := rfl

theorem urlIdxFrom_none :
    ∀ (rs : List RankedRec) (i : Nat) (u : String),
      u ∉ rs.map RankedRec.url → urlIdxFrom i rs u = none
  | [], _, _, _ => rfl
  | r :: rest, i, u, h => by
    have h1 : u ∉ rest.map RankedRec.url :=
      fun hm => h (List.mem_cons_of_mem _ hm)
    have h2 : ¬ r.url = u := fun he => h (by simp [← he])
    simp only [urlIdxFrom, urlIdxFrom_none rest (i + 1) u h1]
    rw [if_neg h2]

theorem urlIdxFrom_nodup :
    ∀ (rs : List RankedRec) (i k : Nat) (hk : k < rs.length),
      (rs.map RankedRec.url).Nodup →
      urlIdxFrom i rs (rs[k].url) = some (i + k)
  | [], _, k, hk, _ => absurd hk (by simp)
  | r :: rest, i, 0, hk, hnd => by
    have hnotin : r.url ∉ rest.map RankedRec.url := by
      simp only [List.map_cons, List.nodup_cons] at hnd
      exact hnd.1
    simp only [List.getElem_cons_zero, urlIdxFrom,
      urlIdxFrom_none rest (i + 1) r.url hnotin]
    simp
  | r :: rest, i, k + 1, hk, hnd => by
    have hnd' : (rest.map RankedRec.url).Nodup := by
      simp only [List.map_cons, List.nodup_cons] at hnd
      exact hnd.2
    have hk' : k < rest.length := by
      simp only [List.length_cons] at hk
      omega
    simp only [List.getElem_cons_succ, urlIdxFrom,
      urlIdxFrom_nodup rest (i + 1) k hk' hnd']
    exact congrArg some (by omega)

theorem fetched_strict_sorted (co : String → Option String)
    (io : String → Option (Option String × String × (Option Int × Option Int)))
    (inc : Bool) (rs : List RankedRec)
    (hnodup : (rs.map RankedRec.url).Nodup) :
    (rs.map (fetch_single co io inc)).Pairwise
      (fun a b => url_to_index_get rs a.url < url_to_index_get rs b.url) := by
  rw [List.pairwise_iff_getElem]
  intro i j hi hj hij
  have hi' : i < rs.length := by simpa using hi
  have hj' : j < rs.length := by simpa using hj
  rw [List.getElem_map, List.getElem_map, fetch_single_url, fetch_single_url]
  unfold url_to_index_get
  rw [urlIdxFrom_nodup rs 0 i hi' hnodup, urlIdxFrom_nodup rs 0 j hj' hnodup]
  simpa using hij

theorem perm_strict_sorted_eq {α : Type} (k : α → Nat) :
    ∀ (l₁ l₂ : List α), l₁.Perm l₂ →
      l₁.Pairwise (fun a b => k a < k b) →
      l₂.Pairwise (fun a b => k a < k b) → l₁ = l₂
  | [], l₂, h, _, _ => (h.symm.eq_nil).symm
  | a :: l₁, l₂, h, h1, h2 => by
    rcases l₂ with _ | ⟨b, l₂⟩
    · exact absurd h.eq_nil (by simp)
    · have hab : a = b := by
        by_contra hne
        have ha : a ∈ b :: l₂ := h.mem_iff.mp (List.mem_cons_self _ _)
        have hb : b ∈ a :: l₁ := h.mem_iff.mpr (List.mem_cons_self _ _)
        rcases List.mem_cons.mp ha with h' | ha'
        · exact hne h'
        rcases List.mem_cons.mp hb with h' | hb'
        · exact hne h'.symm
        have k1 : k a < k b := (List.pairwise_cons.mp h1).1 b hb'
        have k2 : k b < k a := (List.pairwise_cons.mp h2).1 a ha'
        omega
      subst hab
      rw [perm_strict_sorted_eq k l₁ l₂ h.cons_inv
        (List.pairwise_cons.mp h1).2 (List.pairwise_cons.mp h2).2]

/-! ## Claim theorems: parallel extractor -/

/-- C3: for every fetch/image oracle (each failing on an arbitrary subset
of URLs) and every completion order of the worker pool, the parallel
extraction stage returns exactly one record per input URL in input order;
a failed content fetch degrades that record to empty-string content and a
failed (or disabled) image extraction to image "none" — the batch never
shrinks or aborts. -/
theorem C3_parallel_preserves_batch (co : String → Option String)
    (io : String → Option (Option String × String × (Option Int × Option Int)))
    (inc : Bool) (rs : List RankedRec) (completed : List ExtractedRec)
    (hnodup : (rs.map RankedRec.url).Nodup)
    (hperm : completed.Perm (rs.map (fetch_single co io inc))) :
    extract_content_parallel co io inc rs completed =
      rs.map (fetch_single co io inc) ∧
    (extract_content_parallel co io inc rs completed).length = rs.length ∧
    (∀ r : RankedRec, co r.url = none →
      (fetch_single co io inc r).content = "") ∧
    (∀ r : RankedRec, inc = false ∨ io r.url = none →
      (fetch_single co io inc r).image_url = none ∧
      (fetch_single co io inc r).image_source = "none" ∧
      (fetch_single co io inc r).image_dims = (none, none)) := by
  have htot : ∀ a b : ExtractedRec,
      decide (url_to_index_get rs a.url ≤ url_to_index_get rs b.url) = true ∨
      decide (url_to_index_get rs b.url ≤ url_to_index_get rs a.url) = true := by
    intro a b
    rcases Nat.le_total (url_to_index_get rs a.url) (url_to_index_get rs b.url)
      with h | h <;> simp [h]
  have htrans : ∀ a b c : ExtractedRec,
      decide (url_to_index_get rs a.url ≤ url_to_index_get rs b.url) = true →
      decide (url_to_index_get rs b.url ≤ url_to_index_get rs c.url) = true →
      decide (url_to_index_get rs a.url ≤ url_to_index_get rs c.url) = true := by
    intro a b c
    simp only [decide_eq_true_eq]
    omega
  have hL := fetched_strict_sorted co io inc rs hnodup
  have hout_perm : (extract_content_parallel co io inc rs completed).Perm
      (rs.map (fetch_single co io inc)) :=
    (pySortBy_perm _ completed).trans hperm
  have hout_le : (extract_content_parallel co io inc rs completed).Pairwise
      (fun a b =>
        decide (url_to_index_get rs a.url ≤ url_to_index_get rs b.url) = true) :=
    pySortBy_pairwise _ htot htrans completed
  have hmapk_nodup :
      ((rs.map (fetch_single co io inc)).map
        (fun e => url_to_index_get rs e.url)).Nodup := by
    unfold List.Nodup
    rw [List.pairwise_map]
    exact hL.imp (fun h => by omega)
  have hout_ne : (extract_content_parallel co io inc rs completed).Pairwise
      (fun a b => url_to_index_get rs a.url ≠ url_to_index_get rs b.url) := by
    have := ((hout_perm.map (fun e => url_to_index_get rs e.url)).nodup_iff).mpr
      hmapk_nodup
    unfold List.Nodup at this
    rw [List.pairwise_map] at this
    exact this
  have hout_lt : (extract_content_parallel co io inc rs completed).Pairwise
      (fun a b => url_to_index_get rs a.url < url_to_index_get rs b.url) := by
    refine ((hout_le.imp (fun h => decide_eq_true_eq.mp h)).and hout_ne).imp ?_
    intro a b h
    omega
  have heq := perm_strict_sorted_eq (fun e => url_to_index_get rs e.url)
    _ _ hout_perm hout_lt hL
  refine ⟨heq, by rw [heq, List.length_map], ?_, ?_⟩
  · intro r h
    simp [fetch_single, h]
  · intro r h
    rcases h with h | h
    · simp [fetch_single, h]
    · cases inc <;> simp [fetch_single, h]

/-- Witness for C3 at the spec's concrete scenario: five distinct URLs,
URL #3 failing both its content fetch and its image extraction, with the
workers completing in reverse order. -/
theorem C3_parallel_preserves_batch_witness :
    ((rsW.map RankedRec.url).Nodup ∧
      completedW.Perm (rsW.map (fetch_single coW ioW true))) ∧
    extract_content_parallel coW ioW true rsW completedW =
      rsW.map (fetch_single coW ioW true) :=
  ⟨⟨by decide, List.reverse_perm _⟩,
    (C3_parallel_preserves_batch coW ioW true rsW completedW (by decide)
      (List.reverse_perm _)).1⟩

/-! ## Lemmas: configuration and pre-flight credential check -/

theorem startsWithL_append_ext :
    ∀ (sub a b : List Char), startsWithL sub a = true →
      startsWithL sub (a ++ b) = true
  | [], _, _, _ => rfl
  | p :: ps, [], b, h => by cases h
  | p :: ps, c :: cs, b, h => by
    simp only [startsWithL, Bool.and_eq_true] at h
    simp only [List.cons_append, startsWithL, Bool.and_eq_true]
    exact ⟨h.1, startsWithL_append_ext ps cs b h.2⟩

theorem startsWithL_self_append (p rest : List Char) :
    startsWithL p (p ++ rest) = true := by
  induction p with
  | nil => rfl
  | cons c cs ih =>
    simp only [List.cons_append, startsWithL, Bool.and_eq_true]
    exact ⟨by simp, ih⟩

theorem containsL_nil_pat : ∀ l : List Char, containsL [] l = true
  | [] => rfl
  | c :: cs => by simp [containsL, startsWithL]

theorem containsL_of_starts (sub l : List Char)
    (h : startsWithL sub l = true) : containsL sub l = true := by
  cases l with
  | nil =>
    cases sub with
    | nil => rfl
    | cons p ps => cases h
  | cons c cs => simp [containsL, h]

theorem containsL_append_right :
    ∀ (sub a b : List Char), containsL sub b = true →
      containsL sub (a ++ b) = true
  | sub, [], b, h => h
  | sub, c :: cs, b, h => by
    simp only [List.cons_append, containsL, Bool.or_eq_true]
    exact Or.inr (containsL_append_right sub cs b h)

theorem containsL_append_left :
    ∀ (sub a b : List Char), containsL sub a = true →
      containsL sub (a ++ b) = true
  | sub, [], b, h => by
    cases sub with
    | nil => exact containsL_nil_pat b
    | cons p ps => cases h
  | sub, c :: cs, b, h => by
    simp only [containsL, Bool.or_eq_true] at h
    simp only [List.cons_append, containsL, Bool.or_eq_true]
    rcases h with h | h
    · exact Or.inl (startsWithL_append_ext sub (c :: cs) b h)
    · exact Or.inr (containsL_append_left sub cs b h)

theorem join_contains_mem :
    ∀ (xs : List String) (k : String), k ∈ xs →
      containsL k.data (joinSep ", " xs).data = true
  | [], k, h => absurd h (List.not_mem_nil k)
  | [x], k, h => by
    rcases List.mem_singleton.mp h with rfl
    exact containsL_of_starts _ _ (by simpa using startsWithL_self_append k.data [])
  | x :: y :: xs, k, h => by
    rcases List.mem_cons.mp h with rfl | h'
    · show containsL k.data (k ++ ", " ++ joinSep ", " (y :: xs)).data = true
      rw [String.append_assoc, String.data_append]
      exact containsL_append_left _ _ _
        (containsL_of_starts _ _ (by simpa using startsWithL_self_append k.data []))
    · show containsL k.data (x ++ ", " ++ joinSep ", " (y :: xs)).data = true
      rw [String.data_append]
      exact containsL_append_right _ _ _ (join_contains_mem (y :: xs) k h')

theorem assert_characterization (env : String → Option String)
    (p : String) (b : Bool) (keys : List String)
    (hk : required_keys_for p b = .ok keys) :
    (assert_required_keys env p b = .ok () ↔
      ∀ k ∈ keys, key_present env k = true) ∧
    (∀ k ∈ keys, key_present env k = false →
      ∃ msg, assert_required_keys env p b = .error msg ∧
        pyContains msg k = true) := by
  unfold assert_required_keys
  rw [hk]
  dsimp only
  constructor
  · by_cases hm : keys.filter (fun k => !(key_present env k)) = []
    · rw [if_pos hm]
      constructor
      · intro _ k hkmem
        have hall := List.filter_eq_nil.mp hm k hkmem
        simpa using hall
      · intro _
        rfl
    · rw [if_neg hm]
      constructor
      · intro h
        cases h
      · intro hall
        exact absurd (List.filter_eq_nil.mpr
          (fun k hkmem => by simp [hall k hkmem])) hm
  · intro k hkmem hkfalse
    have hmem : k ∈ keys.filter (fun k => !(key_present env k)) :=
      List.mem_filter.mpr ⟨hkmem, by simp [hkfalse]⟩
    have hm : keys.filter (fun k => !(key_present env k)) ≠ [] := by
      intro h
      rw [h] at hmem
      cases hmem
    rw [if_neg hm]
    refine ⟨_, rfl, ?_⟩
    have hjoin := join_contains_mem _ k hmem
    unfold pyContains
    rw [String.data_append, String.data_append, List.append_assoc]
    exact containsL_append_right _ _ _ (containsL_append_left _ _ _ hjoin)

/-! ## Claim theorems: configuration and credential check -/

/-- C7: the orchestrator truncates the ranked list to exactly
`max(min, min(max, requested))` entries whenever that many are available
(and to everything available otherwise); with an empty environment the
configured bounds default to min = 6 and max = 8. -/
theorem C7_rank_window {α : Type} (min_rank max_rank requested : Nat)
    (results : List (SearchRec α)) :
    (max min_rank (min max_rank requested) ≤ (dedup_and_rank results).length →
      (rankWindow min_rank max_rank requested results).length =
        max min_rank (min max_rank requested)) ∧
    (rankWindow min_rank max_rank requested results).length =
      min (max min_rank (min max_rank requested))
        (dedup_and_rank results).length ∧
    get_min_ranked_results (fun _ => none) = 6 ∧
    get_max_ranked_results (fun _ => none) = 8 := by
  refine ⟨?_, ?_, rfl, rfl⟩
  · intro h
    unfold rankWindow
    rw [List.length_take]
    omega
  · unfold rankWindow
    rw [List.length_take]

/-- Witness for C7: min = 2, max = 3, requested = 5, four distinct ranked
results available, so the window is truncated to exactly 3 entries. -/
theorem C7_rank_window_witness :
    (max 2 (min 3 5) ≤
      (dedup_and_rank
        ([⟨"a", 0, 0⟩, ⟨"b", 0, 0⟩, ⟨"c", 0, 0⟩, ⟨"d", 0, 0⟩] :
          List (SearchRec Nat))).length) ∧
    (rankWindow 2 3 5
      ([⟨"a", 0, 0⟩, ⟨"b", 0, 0⟩, ⟨"c", 0, 0⟩, ⟨"d", 0, 0⟩] :
        List (SearchRec Nat))).length = max 2 (min 3 5) :=
  ⟨by decide,
    (C7_rank_window 2 3 5 _).1 (by decide)⟩

/-- C8: for each of the two providers and each secondary-search flag, the
required key set contains the Exa key always, the OpenAI key iff GPT-5,
the Anthropic key iff Claude, the Brave key iff the flag is set, and
nothing else; the pre-flight check succeeds iff every required key is set
and non-blank, and otherwise fails with one message naming every missing
key. -/
theorem C8_required_keys (p : String) (b : Bool)
    (env : String → Option String)
    (hp : p = "GPT-5" ∨ p = "Claude Sonnet 4.5") :
    ∃ keys, required_keys_for p b = .ok keys ∧
      "EXA_API_KEY" ∈ keys ∧
      ("OPENAI_API_KEY" ∈ keys ↔ p = "GPT-5") ∧
      ("ANTHROPIC_API_KEY" ∈ keys ↔ p = "Claude Sonnet 4.5") ∧
      ("BRAVE_API_KEY" ∈ keys ↔ b = true) ∧
      (∀ k ∈ keys, k = "EXA_API_KEY" ∨ k = "OPENAI_API_KEY" ∨
        k = "ANTHROPIC_API_KEY" ∨ k = "BRAVE_API_KEY") ∧
      (assert_required_keys env p b = .ok () ↔
        ∀ k ∈ keys, key_present env k = true) ∧
      (∀ k ∈ keys, key_present env k = false →
        ∃ msg, assert_required_keys env p b = .error msg ∧
          pyContains msg k = true) := by
  rcases hp with rfl | rfl
  · have hk : required_keys_for "GPT-5" b =
        .ok (["EXA_API_KEY", "OPENAI_API_KEY"] ++
          (if b then ["BRAVE_API_KEY"] else [])) := by
      unfold required_keys_for
      rw [if_pos rfl]
    exact ⟨_, hk, by cases b <;> decide, by cases b <;> decide,
      by cases b <;> decide, by cases b <;> decide, by cases b <;> decide,
      (assert_characterization env _ b _ hk).1,
      (assert_characterization env _ b _ hk).2⟩
  · have hk : required_keys_for "Claude Sonnet 4.5" b =
        .ok (["EXA_API_KEY", "ANTHROPIC_API_KEY"] ++
          (if b then ["BRAVE_API_KEY"] else [])) := by
      unfold required_keys_for
      rw [if_neg (by decide), if_pos rfl]
    exact ⟨_, hk, by cases b <;> decide, by cases b <;> decide,
      by cases b <;> decide, by cases b <;> decide, by cases b <;> decide,
      (assert_characterization env _ b _ hk).1,
      (assert_characterization env _ b _ hk).2⟩

/-- Witness for C8: provider GPT-5 with secondary search enabled, in an
environment where only the Exa key is set. -/
theorem C8_required_keys_witness :
    (("GPT-5" : String) = "GPT-5" ∨ ("GPT-5" : String) = "Claude Sonnet 4.5") ∧
    ∃ keys, required_keys_for "GPT-5" true = .ok keys ∧
      "EXA_API_KEY" ∈ keys ∧
      ("OPENAI_API_KEY" ∈ keys ↔ ("GPT-5" : String) = "GPT-5") ∧
      ("ANTHROPIC_API_KEY" ∈ keys ↔
        ("GPT-5" : String) = "Claude Sonnet 4.5") ∧
      ("BRAVE_API_KEY" ∈ keys ↔ true = true) ∧
      (∀ k ∈ keys, k = "EXA_API_KEY" ∨ k = "OPENAI_API_KEY" ∨
        k = "ANTHROPIC_API_KEY" ∨ k = "BRAVE_API_KEY") ∧
      (assert_required_keys envW "GPT-5" true = .ok () ↔
        ∀ k ∈ keys, key_present envW k = true) ∧
      (∀ k ∈ keys, key_present envW k = false →
        ∃ msg, assert_required_keys envW "GPT-5" true = .error msg ∧
          pyContains msg k = true) :=
  ⟨Or.inl rfl, C8_required_keys "GPT-5" true envW (Or.inl rfl)⟩

/-! ## Lemmas: JSON codec — decimal digits and numbers -/

theorem digitChar_toNat (d : Nat) (h : d < 10) :
    (Char.ofNat (48 + d)).toNat = 48 + d := by
  interval_cases d <;> decide

theorem digitChar_isDigit (d : Nat) (h : d < 10) :
    isDigitChar (Char.ofNat (48 + d)) = true := by
  interval_cases d <;> decide

theorem natToDigits_ne_nil (n : Nat) : natToDigits n ≠ [] := by
  unfold natToDigits
  by_cases h : n = 0
  · simp [h]
  · rw [if_neg h]
    simp [Nat.digits_ne_nil_iff_ne_zero, h]

theorem natToDigits_all (n : Nat) :
    ∀ c ∈ natToDigits n, isDigitChar c = true := by
  unfold natToDigits
  by_cases h : n = 0
  · rw [if_pos h]
    intro c hc
    rcases List.mem_singleton.mp hc with rfl
    decide
  · rw [if_neg h]
    intro c hc
    rcases List.mem_map.mp hc with ⟨d, hd, rfl⟩
    exact digitChar_isDigit d
      (Nat.digits_lt_base (by norm_num) (List.mem_reverse.mp hd))

theorem natToDigits_head (n : Nat) :
    ∃ c cs', natToDigits n = c :: cs' ∧ isDigitChar c = true := by
  rcases hl : natToDigits n with _ | ⟨c, cs'⟩
  · exact absurd hl (natToDigits_ne_nil n)
  · exact ⟨c, cs', rfl,
      natToDigits_all n c (by rw [hl]; exact List.mem_cons_self _ _)⟩

theorem foldl_digits_acc :
    ∀ (b : List Char) (acc : Nat),
      List.foldl (fun a c => 10 * a + (c.toNat - 48)) acc b =
        acc * 10 ^ b.length +
          List.foldl (fun a c => 10 * a + (c.toNat - 48)) 0 b
  | [], acc => by simp
  | c :: b, acc => by
    simp only [List.foldl_cons, List.length_cons]
    rw [foldl_digits_acc b (10 * acc + (c.toNat - 48)),
      foldl_digits_acc b (10 * 0 + (c.toNat - 48))]
    ring

theorem digitsToNat_cons (c : Char) (l : List Char) :
    digitsToNat (c :: l) = (c.toNat - 48) * 10 ^ l.length + digitsToNat l := by
  unfold digitsToNat
  simp only [List.foldl_cons]
  rw [foldl_digits_acc]
  ring_nf

theorem digitsToNat_append (a b : List Char) :
    digitsToNat (a ++ b) = digitsToNat a * 10 ^ b.length + digitsToNat b := by
  unfold digitsToNat
  rw [List.foldl_append, foldl_digits_acc]

theorem digitsToNat_map_chr :
    ∀ (ds : List Nat), (∀ d ∈ ds, d < 10) →
      digitsToNat (ds.map (fun d => Char.ofNat (48 + d))) =
        Nat.ofDigits 10 ds.reverse
  | [], _ => by simp [digitsToNat, Nat.ofDigits]
  | d :: ds, h => by
    have hd := h d (List.mem_cons_self _ _)
    rw [List.map_cons, digitsToNat_cons,
      digitsToNat_map_chr ds (fun x hx => h x (List.mem_cons_of_mem _ hx)),
      List.reverse_cons, Nat.ofDigits_append, digitChar_toNat d hd]
    simp only [List.length_map, List.length_reverse, Nat.ofDigits_singleton]
    have : 48 + d - 48 = d := by omega
    rw [this]
    ring

theorem digitsToNat_natToDigits (n : Nat) :
    digitsToNat (natToDigits n) = n := by
  by_cases h : n = 0
  · subst h; decide
  · unfold natToDigits
    rw [if_neg h,
      digitsToNat_map_chr _
        (fun d hd => Nat.digits_lt_base (by norm_num) (List.mem_reverse.mp hd)),
      List.reverse_reverse, Nat.ofDigits_digits]

theorem digitsToNat_replicate_zero (k : Nat) (l : List Char) :
    digitsToNat (List.replicate k '0' ++ l) = digitsToNat l := by
  rw [digitsToNat_append]
  have hz : digitsToNat (List.replicate k '0') = 0 := by
    induction k with
    | zero => rfl
    | succ k ih =>
      rw [List.replicate_succ, digitsToNat_cons, ih]
      have h0 : '0'.toNat = 48 := rfl
      rw [h0]
      simp
  rw [hz]
  simp

theorem padDigits_all (e m : Nat) :
    ∀ c ∈ padDigits e m, isDigitChar c = true := by
  intro c hc
  rcases List.mem_append.mp hc with h | h
  · rcases List.eq_of_mem_replicate h with rfl
    decide
  · exact natToDigits_all m c h

theorem padDigits_ne_nil (e m : Nat) : padDigits e m ≠ [] := by
  unfold padDigits
  intro h
  rcases List.append_eq_nil.mp h with ⟨_, h2⟩
  exact natToDigits_ne_nil m h2

theorem padDigits_toNat (e m : Nat) : digitsToNat (padDigits e m) = m := by
  unfold padDigits
  rw [digitsToNat_replicate_zero, digitsToNat_natToDigits]

theorem padDigits_length (e m : Nat) (hm : m < 10 ^ e) (he : 1 ≤ e) :
    (padDigits e m).length = e := by
  have hlen : (natToDigits m).length ≤ e := by
    by_cases h : m = 0
    · subst h
      simpa [natToDigits] using he
    · unfold natToDigits
      rw [if_neg h]
      simp only [List.length_map, List.length_reverse]
      rw [Nat.digits_len 10 m (by norm_num) h]
      have := (Nat.lt_pow_iff_log_lt (by norm_num) h).mp hm
      omega
  unfold padDigits
  rw [List.length_append, List.length_replicate]
  omega

theorem takeDigitsL_append :
    ∀ (ds rest : List Char), (∀ c ∈ ds, isDigitChar c = true) →
      (∀ c, rest.head? = some c → isDigitChar c = false) →
      takeDigitsL (ds ++ rest) = (ds, rest)
  | [], rest, _, hr => by
    cases rest with
    | nil => rfl
    | cons c r =>
      have := hr c rfl
      simp [takeDigitsL, this]
  | d :: ds, rest, hd, hr => by
    have h1 := hd d (List.mem_cons_self _ _)
    have ih := takeDigitsL_append ds rest
      (fun c hc => hd c (List.mem_cons_of_mem _ hc)) hr
    simp only [List.cons_append, takeDigitsL, h1, if_true, List.append_eq, ih]

theorem digit_ne_of {c : Char} (h : isDigitChar c = true) (p : Char)
    (hp : isDigitChar p = false) : ¬ p = c := by
  intro he
  rw [he, h] at hp
  cases hp

theorem starts_lit_false {p c : Char} (pat cs : List Char) (h : ¬ p = c) :
    startsWithL (p :: pat) (c :: cs) = false := by
  simp only [startsWithL, beq_eq_false_iff_ne.mpr h, Bool.false_and]

theorem renderNum_head (d : DecNum) :
    ∃ c cs', renderNum d = c :: cs' ∧ (c = '-' ∨ isDigitChar c = true) := by
  rcases d with ⟨neg, mag, e⟩
  cases neg
  · by_cases he : e = 0
    · subst he
      rcases natToDigits_head mag with ⟨c, cs', heq, hc⟩
      exact ⟨c, cs', by simp [renderNum, heq], Or.inr hc⟩
    · rcases natToDigits_head (mag / 10 ^ e) with ⟨c, cs', heq, hc⟩
      refine ⟨c, cs' ++ '.' :: padDigits e (mag % 10 ^ e), ?_, Or.inr hc⟩
      simp [renderNum, he, heq]
  · refine ⟨'-', (if e = 0 then natToDigits mag
      else natToDigits (mag / 10 ^ e) ++ '.' :: padDigits e (mag % 10 ^ e)),
      ?_, Or.inl rfl⟩
    simp [renderNum]

theorem parseNumber_core (neg : Bool) (mag e : Nat) (rest : List Char)
    (hrest : ∀ c, rest.head? = some c → isDigitChar c = false ∧ c ≠ '.') :
    takeDigitsL ((if e = 0 then natToDigits mag
        else natToDigits (mag / 10 ^ e) ++ '.' :: padDigits e (mag % 10 ^ e))
        ++ rest) =
      (if e = 0 then (natToDigits mag, rest)
       else (natToDigits (mag / 10 ^ e),
         '.' :: (padDigits e (mag % 10 ^ e) ++ rest))) := by
  by_cases he : e = 0
  · rw [if_pos he, if_pos he]
    exact takeDigitsL_append _ _ (natToDigits_all mag)
      (fun c hc => (hrest c hc).1)
  · rw [if_neg he, if_neg he, List.append_assoc, List.cons_append]
    exact takeDigitsL_append _ _ (natToDigits_all _) (fun c hc => by
      simp only [List.head?_cons, Option.some_inj] at hc
      rw [← hc]
      decide)

theorem parseNumber_render (d : DecNum) (rest : List Char)
    (hrest : ∀ c, rest.head? = some c → isDigitChar c = false ∧ c ≠ '.') :
    parseNumber (renderNum d ++ rest) = .ok (d, rest) := by
  rcases d with ⟨neg, mag, e⟩
  have hdot : ∀ (l : List Char), (∀ c, l.head? = some c → c ≠ '.') →
      startsWithL ['.'] l = false := by
    intro l hl
    cases l with
    | nil => rfl
    | cons c r => exact starts_lit_false _ _ (fun he => hl c rfl he.symm)
  have hcore := parseNumber_core neg mag e rest hrest
  cases neg
  · -- positive: no sign character
    have hbody : renderNum ⟨false, mag, e⟩ =
        (if e = 0 then natToDigits mag
         else natToDigits (mag / 10 ^ e) ++ '.' :: padDigits e (mag % 10 ^ e)) := by
      simp [renderNum]
    rcases renderNum_head ⟨false, mag, e⟩ with ⟨c, cs', heq, hc⟩
    have hcdig : isDigitChar c = true := by
      rcases hc with rfl | hc
      · exfalso
        rw [hbody] at heq
        by_cases he : e = 0
        · rw [if_pos he] at heq
          have := natToDigits_all mag '-' (by rw [heq]; exact List.mem_cons_self _ _)
          exact absurd this (by decide)
        · rw [if_neg he] at heq
          rcases natToDigits_head (mag / 10 ^ e) with ⟨c0, cs0, heq0, hc0⟩
          rw [heq0, List.cons_append] at heq
          injection heq with h1 _
          rw [h1] at hc0
          exact absurd hc0 (by decide)
      · exact hc
    have hsgn : startsWithL ['-'] (renderNum ⟨false, mag, e⟩ ++ rest) = false := by
      rw [heq, List.cons_append]
      exact starts_lit_false _ _ (digit_ne_of hcdig '-' (by decide))
    unfold parseNumber
    rw [hsgn]
    simp only [Bool.false_eq_true, if_false]
    rw [hbody, hcore]
    by_cases he : e = 0
    · rw [if_pos he]
      simp only
      rw [if_neg (natToDigits_ne_nil mag), hdot rest (fun c hc => (hrest c hc).2)]
      simp only [Bool.false_eq_true, if_false, digitsToNat_natToDigits, he]
    · rw [if_neg he]
      simp only
      rw [if_neg (natToDigits_ne_nil _)]
      have hstart : startsWithL ['.']
          ('.' :: (padDigits e (mag % 10 ^ e) ++ rest)) = true := by
        simp [startsWithL]
      rw [hstart]
      simp only [if_true, List.drop_succ_cons, List.drop_zero]
      rw [takeDigitsL_append _ _ (padDigits_all e _) (fun c hc => (hrest c hc).1)]
      simp only
      rw [if_neg (padDigits_ne_nil e _)]
      rw [digitsToNat_append, padDigits_toNat, digitsToNat_natToDigits,
        padDigits_length e _ (Nat.mod_lt _ (pow_pos (by norm_num) e))
          (by omega)]
      rw [Nat.div_add_mod' mag (10 ^ e)]
  · -- negative: a leading '-'
    have hbody : renderNum ⟨true, mag, e⟩ =
        '-' :: ((if e = 0 then natToDigits mag
          else natToDigits (mag / 10 ^ e) ++ '.' :: padDigits e (mag % 10 ^ e))) := by
      simp [renderNum]
    unfold parseNumber
    rw [hbody, List.cons_append]
    have hsgn : startsWithL ['-']
        ('-' :: ((if e = 0 then natToDigits mag
          else natToDigits (mag / 10 ^ e) ++ '.' :: padDigits e (mag % 10 ^ e))
          ++ rest)) = true := by
      simp [startsWithL]
    rw [hsgn]
    simp only [if_true, List.drop_succ_cons, List.drop_zero]
    rw [hcore]
    by_cases he : e = 0
    · rw [if_pos he]
      simp only
      rw [if_neg (natToDigits_ne_nil mag), hdot rest (fun c hc => (hrest c hc).2)]
      simp only [Bool.false_eq_true, if_false, digitsToNat_natToDigits, he]
    · rw [if_neg he]
      simp only
      rw [if_neg (natToDigits_ne_nil _)]
      have hstart : startsWithL ['.']
          ('.' :: (padDigits e (mag % 10 ^ e) ++ rest)) = true := by
        simp [startsWithL]
      rw [hstart]
      simp only [if_true, List.drop_succ_cons, List.drop_zero]
      rw [takeDigitsL_append _ _ (padDigits_all e _) (fun c hc => (hrest c hc).1)]
      simp only
      rw [if_neg (padDigits_ne_nil e _)]
      rw [digitsToNat_append, padDigits_toNat, digitsToNat_natToDigits,
        padDigits_length e _ (Nat.mod_lt _ (pow_pos (by norm_num) e))
          (by omega)]
      rw [Nat.div_add_mod' mag (10 ^ e)]

/-! ## Lemmas: JSON codec — strings and values -/

theorem strBody_escape :
    ∀ (l acc rest : List Char),
      strBody acc (escList l ++ '"' :: rest) = .ok (⟨acc.reverse ++ l⟩, rest)
  | [], acc, rest => by
    rw [escList, List.nil_append, strBody.eq_def]
    simp
  | c :: l, acc, rest => by
    have ih := fun a => strBody_escape l a rest
    by_cases h1 : c = '"'
    · subst h1
      rw [escList, escChar]
      simp only [if_pos rfl, List.cons_append, List.nil_append]
      rw [strBody.eq_def]
      simp [escDecode, ih, List.append_assoc]
    · by_cases h2 : c = '\\'
      · subst h2
        rw [escList, escChar]
        simp only [if_neg (by decide : ¬ ('\\' : Char) = '"'), if_pos rfl,
          List.cons_append, List.nil_append]
        rw [strBody.eq_def]
        simp [escDecode, ih, List.append_assoc]
      · by_cases h3 : c = '\n'
        · subst h3
          rw [escList, escChar]
          simp only [if_neg (by decide : ¬ ('\n' : Char) = '"'),
            if_neg (by decide : ¬ ('\n' : Char) = '\\'), if_pos rfl,
            List.cons_append, List.nil_append]
          rw [strBody.eq_def]
          simp [escDecode, ih, List.append_assoc]
        · by_cases h4 : c = '\t'
          · subst h4
            rw [escList, escChar]
            simp only [if_neg (by decide : ¬ ('\t' : Char) = '"'),
              if_neg (by decide : ¬ ('\t' : Char) = '\\'),
              if_neg (by decide : ¬ ('\t' : Char) = '\n'), if_pos rfl,
              List.cons_append, List.nil_append]
            rw [strBody.eq_def]
            simp [escDecode, ih, List.append_assoc]
          · by_cases h5 : c = '\r'
            · subst h5
              rw [escList, escChar]
              simp only [if_neg (by decide : ¬ ('\r' : Char) = '"'),
                if_neg (by decide : ¬ ('\r' : Char) = '\\'),
                if_neg (by decide : ¬ ('\r' : Char) = '\n'),
                if_neg (by decide : ¬ ('\r' : Char) = '\t'), if_pos rfl,
                List.cons_append, List.nil_append]
              rw [strBody.eq_def]
              simp [escDecode, ih, List.append_assoc]
            · rw [escList, escChar]
              simp only [if_neg h1, if_neg h2, if_neg h3, if_neg h4, if_neg h5,
                List.cons_append, List.nil_append]
              rw [strBody.eq_def]
              simp [h1, h2, ih, List.append_assoc]

theorem skipWs_not {c : Char} (l : List Char) (h : isWsChar c = false) :
    skipWsL (c :: l) = c :: l := by
  simp [skipWsL, h]

theorem digit_not_ws {c : Char} (h : isDigitChar c = true) :
    isWsChar c = false := by
  cases hw : isWsChar c with
  | false => rfl
  | true =>
    exfalso
    simp only [isWsChar, Bool.or_eq_true, beq_iff_eq] at hw
    rcases hw with ((rfl | rfl) | rfl) | rfl <;> exact absurd h (by decide)

theorem jsizeV_pos (v : Json) : 1 ≤ jsizeV v := by
  cases v <;> simp [jsizeV]

theorem renderV_head (v : Json) :
    ∃ c cs', renderV v = c :: cs' ∧ isWsChar c = false ∧ ¬ ']' = c := by
  cases v with
  | jnull => exact ⟨'n', ['u', 'l', 'l'], rfl, by decide, by decide⟩
  | jbool b =>
    cases b
    · exact ⟨'f', ['a', 'l', 's', 'e'], rfl, by decide, by decide⟩
    · exact ⟨'t', ['r', 'u', 'e'], rfl, by decide, by decide⟩
  | jnum d =>
    rcases renderNum_head d with ⟨c, cs', heq, hc⟩
    refine ⟨c, cs', heq, ?_, ?_⟩
    · rcases hc with rfl | hc
      · decide
      · exact digit_not_ws hc
    · rcases hc with rfl | hc
      · decide
      · exact digit_ne_of hc ']' (by decide)
  | jstr s => exact ⟨'"', escList s.data ++ ['"'], rfl, by decide, by decide⟩
  | jarr a => exact ⟨'[', renderA a ++ [']'], rfl, by decide, by decide⟩
  | jobj o => exact ⟨'\x7b', renderO o ++ ['\x7d'], rfl, by decide, by decide⟩

theorem starts_one (p : Char) (cs : List Char) :
    startsWithL [p] (p :: cs) = true := by
  simp [startsWithL]

theorem parse_render_all :
    ∀ fuel : Nat,
      (∀ v rest, jsizeV v ≤ fuel →
        (∀ c, rest.head? = some c → isDigitChar c = false ∧ c ≠ '.') →
        parseV fuel (renderV v ++ rest) = .ok (v, rest)) ∧
      (∀ hd tl rest, jsizeA (.acons hd tl) ≤ fuel →
        parseItems fuel (renderA (.acons hd tl) ++ ']' :: rest) =
          .ok (.acons hd tl, rest)) ∧
      (∀ k v tl rest, jsizeO (.ocons k v tl) ≤ fuel →
        parseEntries fuel (renderO (.ocons k v tl) ++ '\x7d' :: rest) =
          .ok (.ocons k v tl, rest))
  | 0 => by
    refine ⟨?_, ?_, ?_⟩
    · intro v rest hsz _
      have := jsizeV_pos v
      omega
    · intro hd tl rest hsz
      rw [jsizeA] at hsz
      omega
    · intro k v tl rest hsz
      rw [jsizeO] at hsz
      omega
  | fuel + 1 => by
    obtain ⟨ihV, ihA, ihO⟩ := parse_render_all fuel
    refine ⟨?_, ?_, ?_⟩
    · -- parseV on a rendered value
      intro v rest hsz hrest
      cases v with
      | jnull =>
        rw [parseV.eq_def]
        simp [renderV, skipWsL, isWsChar, startsWithL]
      | jbool b =>
        cases b <;>
          (rw [parseV.eq_def]; simp [renderV, skipWsL, isWsChar, startsWithL])
      | jstr s =>
        rw [parseV.eq_def]
        have hb := strBody_escape s.data [] rest
        simp [renderV, renderStr, skipWsL, isWsChar, startsWithL,
          List.append_assoc, hb]
      | jnum d =>
        rcases renderNum_head d with ⟨c, cs', heq, hc⟩
        have hnws : isWsChar c = false := by
          rcases hc with rfl | hc
          · decide
          · exact digit_not_ws hc
        have hne : (¬ 'n' = c) ∧ (¬ 't' = c) ∧ (¬ 'f' = c) ∧ (¬ '"' = c) ∧
            (¬ '[' = c) ∧ (¬ '\x7b' = c) := by
          rcases hc with rfl | hc
          · refine ⟨by decide, by decide, by decide, by decide, by decide,
              by decide⟩
          · exact ⟨digit_ne_of hc 'n' (by decide), digit_ne_of hc 't' (by decide),
              digit_ne_of hc 'f' (by decide), digit_ne_of hc '"' (by decide),
              digit_ne_of hc '[' (by decide), digit_ne_of hc '\x7b' (by decide)⟩
        have hP := parseNumber_render d rest hrest
        have hrv : renderV (.jnum d) = renderNum d := rfl
        rw [parseV.eq_def, hrv, heq, List.cons_append]
        dsimp only
        rw [skipWs_not _ hnws]
        simp only [starts_lit_false _ _ hne.1, starts_lit_false _ _ hne.2.1,
          starts_lit_false _ _ hne.2.2.1, starts_lit_false _ _ hne.2.2.2.1,
          starts_lit_false _ _ hne.2.2.2.2.1, starts_lit_false _ _ hne.2.2.2.2.2,
          Bool.false_eq_true, if_false]
        rw [← List.cons_append, ← heq, hP]
      | jarr a =>
        cases a with
        | anil =>
          rw [parseV.eq_def]
          simp [renderV, renderA, skipWsL, isWsChar, startsWithL]
        | acons hd tl =>
          have hsz' : jsizeA (.acons hd tl) ≤ fuel := by
            rw [jsizeV] at hsz
            omega
          have hIH := ihA hd tl rest hsz'
          rcases renderV_head hd with ⟨c, cs', hheq, hcw, hcrb⟩
          have hA : ∃ Y, renderA (.acons hd tl) ++ ']' :: rest = c :: Y := by
            cases tl <;> simp [renderA, hheq]
          rcases hA with ⟨Y, hy⟩
          have hrv : renderV (.jarr (.acons hd tl)) ++ rest =
              '[' :: (renderA (.acons hd tl) ++ ']' :: rest) := by
            simp [renderV, List.append_assoc]
          rw [parseV.eq_def, hrv]
          dsimp only
          rw [skipWs_not _ (by decide)]
          simp only [starts_lit_false _ _ (by decide : ¬ 'n' = '['),
            starts_lit_false _ _ (by decide : ¬ 't' = '['),
            starts_lit_false _ _ (by decide : ¬ 'f' = '['),
            starts_lit_false _ _ (by decide : ¬ '"' = '['),
            starts_one, Bool.false_eq_true, if_false, if_pos,
            List.drop_succ_cons, List.drop_zero]
          rw [hy, skipWs_not _ hcw, starts_lit_false _ _ hcrb]
          simp only [Bool.false_eq_true, if_false]
          rw [← hy, hIH]
      | jobj o =>
        cases o with
        | onil =>
          rw [parseV.eq_def]
          simp [renderV, renderO, skipWsL, isWsChar, startsWithL]
        | ocons k v' tl =>
          have hsz' : jsizeO (.ocons k v' tl) ≤ fuel := by
            rw [jsizeV] at hsz
            omega
          have hIH := ihO k v' tl rest hsz'
          have hO : ∃ Y, renderO (.ocons k v' tl) ++ '\x7d' :: rest = '"' :: Y := by
            cases tl <;>
              simp [renderO, renderStr, List.append_assoc, List.cons_append]
          rcases hO with ⟨Y, hy⟩
          have hrv : renderV (.jobj (.ocons k v' tl)) ++ rest =
              '\x7b' :: (renderO (.ocons k v' tl) ++ '\x7d' :: rest) := by
            simp [renderV, List.append_assoc]
          rw [parseV.eq_def, hrv]
          dsimp only
          rw [skipWs_not _ (by decide)]
          simp only [starts_lit_false _ _ (by decide : ¬ 'n' = '\x7b'),
            starts_lit_false _ _ (by decide : ¬ 't' = '\x7b'),
            starts_lit_false _ _ (by decide : ¬ 'f' = '\x7b'),
            starts_lit_false _ _ (by decide : ¬ '"' = '\x7b'),
            starts_lit_false _ _ (by decide : ¬ '[' = '\x7b'),
            starts_one, Bool.false_eq_true, if_false, if_pos,
            List.drop_succ_cons, List.drop_zero]
          rw [hy, skipWs_not _ (by decide),
            starts_lit_false _ _ (by decide : ¬ '\x7d' = '"')]
          simp only [Bool.false_eq_true, if_false]
          rw [← hy, hIH]
    · -- parseItems on a rendered non-empty array body
      intro hd tl rest hsz
      cases tl with
      | anil =>
        have hszv : jsizeV hd ≤ fuel := by
          rw [jsizeA] at hsz
          omega
        have h1 := ihV hd (']' :: rest) hszv (fun c hc => by
          simp only [List.head?_cons, Option.some_inj] at hc
          rw [← hc]
          exact ⟨by decide, by decide⟩)
        rw [parseItems.eq_def]
        dsimp only
        have hra : renderA (.acons hd .anil) = renderV hd := rfl
        rw [hra, h1]
        dsimp only
        rw [skipWs_not _ (by decide),
          starts_lit_false _ _ (by decide : ¬ ',' = ']')]
        simp only [Bool.false_eq_true, if_false, starts_one, if_pos,
          List.drop_succ_cons, List.drop_zero]
      | acons hd2 tl2 =>
        have hszv : jsizeV hd ≤ fuel := by
          rw [jsizeA] at hsz
          omega
        have hsza : jsizeA (.acons hd2 tl2) ≤ fuel := by
          rw [jsizeA, jsizeA] at hsz
          rw [jsizeA]
          omega
        have h1 := ihV hd (',' :: (renderA (.acons hd2 tl2) ++ ']' :: rest))
          hszv (fun c hc => by
            simp only [List.head?_cons, Option.some_inj] at hc
            rw [← hc]
            exact ⟨by decide, by decide⟩)
        have h2 := ihA hd2 tl2 rest hsza
        have hra : renderA (.acons hd (.acons hd2 tl2)) ++ ']' :: rest =
            renderV hd ++ (',' :: (renderA (.acons hd2 tl2) ++ ']' :: rest)) := by
          rw [renderA]
          · simp [List.append_assoc]
          · exact fun h => JArr.noConfusion h
        rw [parseItems.eq_def]
        dsimp only
        rw [hra, h1]
        dsimp only
        rw [skipWs_not _ (by decide), starts_one]
        simp only [if_pos, List.drop_succ_cons, List.drop_zero]
        rw [h2]
    · -- parseEntries on a rendered non-empty object body
      intro k v tl rest hsz
      cases tl with
      | onil =>
        have hszv : jsizeV v ≤ fuel := by
          rw [jsizeO] at hsz
          omega
        have hshape : renderO (.ocons k v .onil) ++ '\x7d' :: rest =
            '"' :: (escList k.data ++ '"' ::
              (':' :: (renderV v ++ '\x7d' :: rest))) := by
          rw [renderO, renderStr]
          simp [List.append_assoc]
        have hb := strBody_escape k.data []
          (':' :: (renderV v ++ '\x7d' :: rest))
        have h1 := ihV v ('\x7d' :: rest) hszv (fun c hc => by
          simp only [List.head?_cons, Option.some_inj] at hc
          rw [← hc]
          exact ⟨by decide, by decide⟩)
        rw [parseEntries.eq_def]
        dsimp only
        rw [hshape, skipWs_not _ (by decide), starts_one]
        simp only [if_pos, List.drop_succ_cons, List.drop_zero]
        rw [hb]
        dsimp only
        rw [skipWs_not _ (by decide), starts_one]
        simp only [if_pos, List.drop_succ_cons, List.drop_zero]
        rw [h1]
        dsimp only
        rw [skipWs_not _ (by decide),
          starts_lit_false _ _ (by decide : ¬ ',' = '\x7d')]
        simp only [Bool.false_eq_true, if_false, starts_one, if_pos,
          List.drop_succ_cons, List.drop_zero, List.reverse_nil,
          List.nil_append]
      | ocons k2 v2 tl2 =>
        have hszv : jsizeV v ≤ fuel := by
          rw [jsizeO] at hsz
          omega
        have hszo : jsizeO (.ocons k2 v2 tl2) ≤ fuel := by
          rw [jsizeO, jsizeO] at hsz
          rw [jsizeO]
          omega
        have hshape : renderO (.ocons k v (.ocons k2 v2 tl2)) ++ '\x7d' :: rest =
            '"' :: (escList k.data ++ '"' ::
              (':' :: (renderV v ++ ',' ::
                (renderO (.ocons k2 v2 tl2) ++ '\x7d' :: rest)))) := by
          rw [renderO]
          · rw [renderStr]
            simp [List.append_assoc]
          · exact fun h => JObj.noConfusion h
        have hb := strBody_escape k.data []
          (':' :: (renderV v ++ ',' ::
            (renderO (.ocons k2 v2 tl2) ++ '\x7d' :: rest)))
        have h1 := ihV v
          (',' :: (renderO (.ocons k2 v2 tl2) ++ '\x7d' :: rest)) hszv
          (fun c hc => by
            simp only [List.head?_cons, Option.some_inj] at hc
            rw [← hc]
            exact ⟨by decide, by decide⟩)
        have h2 := ihO k2 v2 tl2 rest hszo
        rw [parseEntries.eq_def]
        dsimp only
        rw [hshape, skipWs_not _ (by decide), starts_one]
        simp only [if_pos, List.drop_succ_cons, List.drop_zero]
        rw [hb]
        dsimp only
        rw [skipWs_not _ (by decide), starts_one]
        simp only [if_pos, List.drop_succ_cons, List.drop_zero]
        rw [h1]
        dsimp only
        rw [skipWs_not _ (by decide), starts_one]
        simp only [if_pos, List.drop_succ_cons, List.drop_zero]
        rw [h2]
        simp only [List.reverse_nil, List.nil_append]

mutual
theorem sizeV_le : ∀ v : Json, jsizeV v ≤ (renderV v).length
  | .jnull => by simp [jsizeV, renderV]
  | .jbool b => by cases b <;> simp [jsizeV, renderV]
  | .jnum d => by
    rcases renderNum_head d with ⟨c, cs', heq, _⟩
    have hrv : renderV (.jnum d) = renderNum d := rfl
    rw [jsizeV, hrv, heq]
    simp

  | .jstr s => by
    rw [jsizeV]
    have hrv : renderV (.jstr s) = renderStr s := rfl
    rw [hrv, renderStr]
    simp
  | .jarr a => by
    have := sizeA_le a
    rw [jsizeV]
    have hrv : renderV (.jarr a) = '[' :: renderA a ++ [']'] := rfl
    rw [hrv]
    simp only [List.length_cons, List.length_append, List.length_singleton]
    omega
  | .jobj o => by
    have := sizeO_le o
    rw [jsizeV]
    have hrv : renderV (.jobj o) = '\x7b' :: renderO o ++ ['\x7d'] := rfl
    rw [hrv]
    simp only [List.length_cons, List.length_append, List.length_singleton]
    omega

theorem sizeA_le : ∀ a : JArr, jsizeA a ≤ (renderA a).length + 1
  | .anil => by simp [jsizeA]
  | .acons v .anil => by
    have := sizeV_le v
    rw [jsizeA, jsizeA]
    have hra : renderA (.acons v .anil) = renderV v := rfl
    rw [hra]
    omega
  | .acons v (.acons v2 tl) => by
    have h1 := sizeV_le v
    have h2 := sizeA_le (.acons v2 tl)
    rw [jsizeA]
    have hra : renderA (.acons v (.acons v2 tl)) =
        renderV v ++ ',' :: renderA (.acons v2 tl) := by
      rw [renderA]
      exact fun h => JArr.noConfusion h
    rw [hra]
    simp only [List.length_append, List.length_cons]
    omega

theorem sizeO_le : ∀ o : JObj, jsizeO o ≤ (renderO o).length + 1
  | .onil => by simp [jsizeO]
  | .ocons k v .onil => by
    have := sizeV_le v
    rw [jsizeO, jsizeO]
    have hro : renderO (.ocons k v .onil) = renderStr k ++ ':' :: renderV v := rfl
    rw [hro]
    simp only [List.length_append, List.length_cons]
    omega
  | .ocons k v (.ocons k2 v2 tl) => by
    have h1 := sizeV_le v
    have h2 := sizeO_le (.ocons k2 v2 tl)
    rw [jsizeO]
    have hro : renderO (.ocons k v (.ocons k2 v2 tl)) =
        renderStr k ++ ':' :: renderV v ++ ',' :: renderO (.ocons k2 v2 tl) := by
      rw [renderO]
      exact fun h => JObj.noConfusion h
    rw [hro]
    simp only [List.length_append, List.length_cons]
    omega
end

theorem json_loads_dumps (v : Json) : json_loads (json_dumps v) = .ok v := by
  unfold json_loads json_dumps
  have hdata : (⟨renderV v⟩ : String).data = renderV v := rfl
  rw [hdata]
  have hp := (parse_render_all ((renderV v).length + 1)).1 v []
    (by have := sizeV_le v; omega)
    (fun c hc => Option.noConfusion hc)
  rw [List.append_nil] at hp
  rw [hp]
  simp [skipWsL]

theorem strip_no_ws_ends {a b : Char} (l : List Char)
    (ha : isPySpace a = false) (hb : isPySpace b = false) :
    stripL (a :: (l ++ [b])) = a :: (l ++ [b]) := by
  unfold stripL
  rw [List.dropWhile_cons, ha]
  simp only [Bool.false_eq_true, if_false]
  have hrev : (a :: (l ++ [b])).reverse = b :: (l.reverse ++ [a]) := by
    simp
  rw [hrev, List.dropWhile_cons, hb]
  simp only [Bool.false_eq_true, if_false]
  rw [← hrev, List.reverse_reverse]

theorem coerce_render_obj (o : JObj) :
    coerce_json_object (json_dumps (.jobj o)) = .ok (.jobj o) := by
  have hshape : (json_dumps (.jobj o)).data =
      '\x7b' :: (renderO o ++ ['\x7d']) := rfl
  have hstrip : stripL (json_dumps (.jobj o)).data =
      (json_dumps (.jobj o)).data := by
    rw [hshape]
    exact strip_no_ws_ends _ (by decide) (by decide)
  have hstarts : pyStartsWith ⟨stripL (json_dumps (.jobj o)).data⟩ "\x7b" = true := by
    rw [hstrip]
    exact starts_one '\x7b' _
  have hends : pyEndsWith ⟨stripL (json_dumps (.jobj o)).data⟩ "\x7d" = true := by
    rw [hstrip]
    unfold pyEndsWith endsWithL
    rw [hshape]
    have hrev : ('\x7b' :: (renderO o ++ ['\x7d'])).reverse =
        '\x7d' :: ((renderO o).reverse ++ ['\x7b']) := by
      simp
    rw [hrev]
    exact starts_one '\x7d' _
  unfold coerce_json_object
  dsimp only
  rw [hstarts, hends]
  simp only [Bool.not_true, Bool.or_self, Bool.false_eq_true, if_false]
  have hmk : (⟨stripL (json_dumps (.jobj o)).data⟩ : String) =
      json_dumps (.jobj o) := by
    rw [hstrip]
  rw [hmk, json_loads_dumps]

/-! ## Lemmas: query enhancer -/

theorem dedupSeen_sublist : ∀ (l seen : List String), (dedupSeen l seen).Sublist l
  | [], _ => List.Sublist.refl _
  | v :: vs, seen => by
    unfold dedupSeen
    split
    · exact (dedupSeen_sublist vs seen).cons v
    · exact (dedupSeen_sublist vs (v :: seen)).cons₂ v

theorem dedupSeen_not_seen :
    ∀ (l seen : List String), ∀ x ∈ dedupSeen l seen, x ∉ seen
  | [], _ => by intro x hx; cases hx
  | v :: vs, seen => by
    intro x hx
    unfold dedupSeen at hx
    split at hx
    · exact dedupSeen_not_seen vs seen x hx
    · rcases List.mem_cons.mp hx with rfl | hx'
      · assumption
      · intro hmem
        exact dedupSeen_not_seen vs (v :: seen) x hx' (List.mem_cons_of_mem _ hmem)

theorem dedupSeen_nodup : ∀ (l seen : List String), (dedupSeen l seen).Nodup
  | [], _ => List.nodup_nil
  | v :: vs, seen => by
    unfold dedupSeen
    split
    · exact dedupSeen_nodup vs seen
    · refine List.nodup_cons.mpr ⟨?_, dedupSeen_nodup vs (v :: seen)⟩
      intro hmem
      exact dedupSeen_not_seen vs (v :: seen) v hmem (List.mem_cons_self _ _)

theorem variantTemplates_length_le (c b : String) :
    (variantTemplates c b).length ≤ 3 := by
  unfold variantTemplates
  split <;> try simp
  split <;> try simp
  split <;> try simp
  split <;> simp

theorem generate_search_variants_eq (q c : String) :
    generate_search_variants q c =
      pyStrip q :: (dedupSeen (variantTemplates c (pyStrip q)) [pyStrip q]).take 5 := by
  simp [generate_search_variants, dedupSeen, List.take_succ_cons]

/-! ## Claim theorems: query enhancer -/

/-- C5: `classify_query` lower-cases the question and tests the
accessibility, feasibility and inspiration keyword lists in that priority
order, returning the first matching category — in particular any question
containing an accessibility keyword (e.g. "aria") is classified
`"accessibility"` — and returns `"pattern"` when no list matches. -/
theorem C5_classify_priority (q : String) :
    ((∃ k ∈ ACCESSIBILITY_KEYWORDS, pyContains (pyLower q) k = true) →
      classify_query q = "accessibility") ∧
    ((¬ ∃ k ∈ ACCESSIBILITY_KEYWORDS, pyContains (pyLower q) k = true) →
      (∃ k ∈ FEASIBILITY_KEYWORDS, pyContains (pyLower q) k = true) →
      classify_query q = "feasibility") ∧
    ((¬ ∃ k ∈ ACCESSIBILITY_KEYWORDS, pyContains (pyLower q) k = true) →
      (¬ ∃ k ∈ FEASIBILITY_KEYWORDS, pyContains (pyLower q) k = true) →
      (∃ k ∈ INSPIRATION_KEYWORDS, pyContains (pyLower q) k = true) →
      classify_query q = "inspiration") ∧
    ((¬ ∃ k ∈ ACCESSIBILITY_KEYWORDS, pyContains (pyLower q) k = true) →
      (¬ ∃ k ∈ FEASIBILITY_KEYWORDS, pyContains (pyLower q) k = true) →
      (¬ ∃ k ∈ INSPIRATION_KEYWORDS, pyContains (pyLower q) k = true) →
      classify_query q = "pattern") := by
  unfold classify_query
  refine ⟨?_, ?_, ?_, ?_⟩ <;> intro h
  · rw [if_pos (List.any_eq_true.mpr h)]
  · intro hf
    rw [if_neg, if_pos (List.any_eq_true.mpr hf)]
    exact fun hc => h (List.any_eq_true.mp hc)
  · intro hf hi
    rw [if_neg, if_neg, if_pos (List.any_eq_true.mpr hi)]
    · exact fun hc => hf (List.any_eq_true.mp hc)
    · exact fun hc => h (List.any_eq_true.mp hc)
  · intro hf hi
    rw [if_neg, if_neg, if_neg]
    · exact fun hc => hi (List.any_eq_true.mp hc)
    · exact fun hc => hf (List.any_eq_true.mp hc)
    · exact fun hc => h (List.any_eq_true.mp hc)

/-- Witness for C5 at the concrete question "Use ARIA labels", which
contains the accessibility keyword "aria" after lower-casing. -/
theorem C5_classify_priority_witness :
    (∃ k ∈ ACCESSIBILITY_KEYWORDS,
        pyContains (pyLower "Use ARIA labels") k = true) ∧
      classify_query "Use ARIA labels" = "accessibility" :=
  ⟨by decide, (C5_classify_priority "Use ARIA labels").1 (by decide)⟩

/-- C6: `generate_search_variants` returns the trimmed question first,
followed by at most 3 of the fixed classification-specific templated
variants in order; the result has no duplicates and length at most 6, and
is a pure function of its two inputs. -/
theorem C6_expand_shape (q c : String) :
    (generate_search_variants q c).head? = some (pyStrip q) ∧
    (generate_search_variants q c).Nodup ∧
    (generate_search_variants q c).length ≤ 6 ∧
    (generate_search_variants q c).tail.Sublist (variantTemplates c (pyStrip q)) ∧
    (generate_search_variants q c).tail.length ≤ 3 := by
  rw [generate_search_variants_eq]
  refine ⟨rfl, ?_, ?_, ?_, ?_⟩
  · refine List.nodup_cons.mpr ⟨?_, (dedupSeen_nodup _ _).sublist (List.take_sublist _ _)⟩
    intro hmem
    exact dedupSeen_not_seen _ _ _ ((List.take_sublist _ _).mem hmem)
      (List.mem_cons_self _ _)
  · have h5 := List.length_take_le 5
      (dedupSeen (variantTemplates c (pyStrip q)) [pyStrip q])
    simp only [List.length_cons]
    omega
  · exact ((List.take_sublist _ _).trans (dedupSeen_sublist _ _))
  · have := ((List.take_sublist 5 _).trans
      (dedupSeen_sublist (variantTemplates c (pyStrip q)) [pyStrip q])).length_le
    have h3 := variantTemplates_length_le c (pyStrip q)
    simp only [List.tail_cons]
    omega

/-! ## Lemmas: schema validation of serialized responses -/

theorem except_bind_ok {ε α β : Type} (a : α) (f : α → Except ε β) :
    (Except.ok a >>= f : Except ε β) = f a := rfl

theorem asOptStr_opt (x : Option String) : asOptStr (optStrJson x) = .ok x := by
  cases x <;> rfl

theorem asOptHttpUrl_opt (x : Option String)
    (h : ∀ u, x = some u → isHttpUrl u = true) :
    asOptHttpUrl (optStrJson x) = .ok x := by
  cases x with
  | none => rfl
  | some u => simp [optStrJson, asOptHttpUrl, h u rfl]

theorem strsOf_strListJson (l : List String) :
    strsOf (JArr.ofList (l.map .jstr)) = .ok l := by
  induction l with
  | nil => rfl
  | cons hd tl ih => simp [JArr.ofList, strsOf, asStr, ih, except_bind_ok]

theorem validateExample_toJson (e : ExampleRec)
    (hu : isHttpUrl e.url = true)
    (hi : ∀ u, e.image_url = some u → isHttpUrl u = true) :
    validateExample (exampleToJson e) = .ok e := by
  obtain ⟨t, u, d, iu, sd⟩ := e
  dsimp only at hu hi
  rcases d with _ | d <;> rcases iu with _ | iu <;> rcases sd with _ | sd <;>
    simp +decide [validateExample, exampleToJson, getReq, getOpt,
      JObj.lookupLast, asStr, asHttpUrl, asOptStr, asOptHttpUrl, optStrJson,
      hu, hi, except_bind_ok]

theorem validateSource_toJson (s : SourceRec)
    (hu : isHttpUrl s.url = true) :
    validateSource (sourceToJson s) = .ok s := by
  obtain ⟨t, u, p, d, sc⟩ := s
  dsimp only at hu
  rcases p with _ | p <;> rcases d with _ | d <;> rcases sc with _ | sc <;>
    simp +decide [validateSource, sourceToJson, getReq, getOpt,
      JObj.lookupLast, asStr, asHttpUrl, asOptStr, asOptNum, optStrJson,
      hu, except_bind_ok]

theorem examplesOf_map (es : List ExampleRec)
    (h : ∀ e ∈ es, isHttpUrl e.url = true ∧
      ∀ u, e.image_url = some u → isHttpUrl u = true) :
    examplesOf (JArr.ofList (es.map exampleToJson)) = .ok es := by
  induction es with
  | nil => rfl
  | cons hd tl ih =>
    have hh := h hd (List.mem_cons_self hd tl)
    have ht : ∀ e ∈ tl, isHttpUrl e.url = true ∧
        ∀ u, e.image_url = some u → isHttpUrl u = true :=
      fun e he => h e (List.mem_cons_of_mem hd he)
    simp [JArr.ofList, examplesOf, validateExample_toJson hd hh.1 hh.2,
      ih ht, except_bind_ok]

theorem sourcesOf_map (ss : List SourceRec)
    (h : ∀ s ∈ ss, isHttpUrl s.url = true) :
    sourcesOf (JArr.ofList (ss.map sourceToJson)) = .ok ss := by
  induction ss with
  | nil => rfl
  | cons hd tl ih =>
    have hh := h hd (List.mem_cons_self hd tl)
    have ht : ∀ s ∈ tl, isHttpUrl s.url = true :=
      fun s hs => h s (List.mem_cons_of_mem hd hs)
    simp [JArr.ofList, sourcesOf, validateSource_toJson hd hh, ih ht,
      except_bind_ok]

theorem validateConsiderations_toJson (c : ConsiderationsRec) :
    validateConsiderations (considerationsToJson c) = .ok c := by
  obtain ⟨ct, ca, cp, cb⟩ := c
  simp +decide [validateConsiderations, considerationsToJson,
    getStrListDefault, JObj.lookupLast, asStrList, strListJson,
    strsOf_strListJson, except_bind_ok]

theorem validateResponse_toJson (r : DesignResearchResponse)
    (h : ValidResponse r) :
    validateResponse (responseToJson r) = .ok r := by
  obtain ⟨hex, hsrc⟩ := h
  obtain ⟨qc, s, bp, es, cons, srcs⟩ := r
  dsimp only at hex hsrc
  have hes := examplesOf_map es hex
  have hss := sourcesOf_map srcs hsrc
  rcases qc with _ | qc <;>
    simp +decide [validateResponse, responseToJson, getReq, getOpt,
      JObj.lookupLast, asStr, asOptStr, optStrJson, asStrList, strListJson,
      strsOf_strListJson, validateConsiderations_toJson, hes, hss,
      except_bind_ok]

/-- **C4** — `coerce_json_object` trims whitespace, slices between the
first `\x7b` and the last `\x7d` when the trimmed text does not already
start and end with them, strict-parses, makes exactly one repair pass on
failure before reparsing, and propagates a parse error otherwise (never a
default object): the code refines the claimed behaviour at every input,
and on a valid JSON object wrapped in stray prose before and after it
returns the parsed inner object. -/
theorem C4_coerce_json :
    (∀ raw : String, coerce_json_object raw = claimCoerce raw) ∧
    coerce_json_object "Sure, here:\n\x7b\"a\": 1\x7d\nHope that helps!" =
      .ok (.jobj (.ocons "a" (.jnum ⟨false, 1, 0⟩) .onil)) := by
  constructor
  · intro raw
    unfold coerce_json_object claimCoerce
    dsimp only
    cases hA : pyStartsWith ⟨stripL raw.data⟩ "\x7b" <;>
      cases hB : pyEndsWith ⟨stripL raw.data⟩ "\x7d" <;> rfl
  · rfl

/-- **C9** — round-trip: for every valid Structured Response object,
serializing it to JSON text and re-parsing through `coerce_json_object`
recovers exactly the serialized JSON value, and schema validation of that
value yields a structurally identical response object. -/
theorem C9_roundtrip (r : DesignResearchResponse) (h : ValidResponse r) :
    coerce_json_object (json_dumps (responseToJson r)) =
      .ok (responseToJson r) ∧
    validateResponse (responseToJson r) = .ok r :=
  ⟨coerce_render_obj _, validateResponse_toJson r h⟩

/-- Witness for C9 at the concrete response `respW`. -/
theorem C9_roundtrip_witness :
    ValidResponse respW ∧
    (coerce_json_object (json_dumps (responseToJson respW)) =
        .ok (responseToJson respW) ∧
      validateResponse (responseToJson respW) = .ok respW) := by
  have hv : ValidResponse respW := by
    constructor
    · intro e he
      simp [respW] at he
      subst he
      exact ⟨by decide, fun u h => by cases h⟩
    · intro s hs
      simp [respW] at hs
      subst hs
      decide
  exact ⟨hv, C9_roundtrip respW hv⟩

end DesignAgent
